import Mathlib

/-!
Verification development for the VimeoMonitoring repository (`src/search.py`).

The Python source is shallowly embedded: Python strings are modelled as
`List Char` (`PyStr`), Python `None`/absent-key behaviour as `Option`,
raising code as `Except`, and the network as explicit response-valued
functions supplied to the orchestrator.  Machine-level concerns (actual
sockets, wall-clock sleeping inside `handle_rate_limiting`) are outside the
embedding; everything the claims quantify over is embedded from the source.
-/

set_option maxHeartbeats 1000000
set_option maxRecDepth 100000

namespace Vimeo

/-- Python strings are modelled as lists of characters. -/
abbrev PyStr := List Char

/-- Literal helper: a Lean string literal viewed as a `PyStr`. -/
def pys (s : String) : PyStr := s.toList

/-- The whitespace characters stripped by Python's `str.strip()`
(ASCII subset, which covers ledger-file content). -/
def isPySpace (c : Char) : Bool :=
  c = ' ' ∨ c = '\t' ∨ c = '\n' ∨ c = '\r' ∨ c = '\x0b' ∨ c = '\x0c'

/-- Embedding of Python `str.strip()`: drop leading and trailing whitespace. -/
def pyStrip (s : PyStr) : PyStr :=
  ((s.dropWhile isPySpace).reverse.dropWhile isPySpace).reverse

/-- Embedding of Python `s.rstrip('Z')` (used on `created_time`):
drop every trailing `'Z'`. -/
def rstripZ (s : PyStr) : PyStr :=
  (s.reverse.dropWhile (· = 'Z')).reverse

/-- Embedding of Python's slice `s[:n]` for an `Int` bound `n`
(negative bounds count from the end, clamped at zero). -/
def pyTakeI (s : PyStr) (n : Int) : PyStr :=
  if 0 ≤ n then s.take n.toNat else s.take ((s.length : Int) + n).toNat

/-- Embedding of `trim_text` (src/search.py, lines 126-131).  `none` models a
Python `None` argument; the bound is an `Int` exactly as in the source, where
the re-truncation budget is computed by integer arithmetic. -/
def trim_text (text : Option PyStr) (max_length : Int) (ell : Bool := true) : PyStr :=
  match text with
  | none => []
  | some t =>
      if (t.length : Int) > max_length then
        if ell then pyTakeI t (max_length - 3) ++ pys "..." else pyTakeI t max_length
      else t

/-- Zero-padded two-digit rendering of a natural number (as Python's
`timedelta`/`isoformat` rendering uses). -/
def pad2 (n : Nat) : PyStr :=
  if n < 10 then '0' :: pys (toString n) else pys (toString n)

/-- Zero-padded four-digit rendering (for `isoformat` years). -/
def pad4 (n : Nat) : PyStr :=
  if n < 10 then pys "000" ++ pys (toString n)
  else if n < 100 then pys "00" ++ pys (toString n)
  else if n < 1000 then pys "0" ++ pys (toString n)
  else pys (toString n)

/-- Embedding of `format_duration` (src/search.py, lines 133-139): `none`
models a `None`/unparseable duration (the caught `TypeError`/`ValueError`),
otherwise the string is Python's `str(timedelta(seconds=n))`, which
normalises to days plus an `H:MM:SS` remainder. -/
def format_duration (seconds : Option Int) : PyStr :=
  match seconds with
  | none => pys "N/A"
  | some n =>
      let days : Int := Int.fdiv n 86400
      let rem : Nat := (Int.fmod n 86400).toNat
      let h : Nat := rem / 3600
      let m : Nat := (rem % 3600) / 60
      let s : Nat := rem % 60
      let hms : PyStr := pys (toString h) ++ [':'] ++ pad2 m ++ [':'] ++ pad2 s
      if days = 0 then hms
      else
        pys (toString days) ++
          (if days = 1 ∨ days = -1 then pys " day, " else pys " days, ") ++ hms

/-- Auxiliary for `pyFileLines`: Python text-file line iteration, carrying the
(reversed) current line. -/
def pyLinesAux (acc : PyStr) : PyStr → List PyStr
  | [] => if acc = [] then [] else [acc.reverse]
  | c :: rest =>
      if c = '\n' then (acc.reverse ++ ['\n']) :: pyLinesAux [] rest
      else pyLinesAux (c :: acc) rest

/-- Iterating a Python text file yields each line with its terminating
newline kept; a final unterminated chunk is yielded iff nonempty. -/
def pyFileLines (s : PyStr) : List PyStr := pyLinesAux [] s

/-- Embedding of `read_known_links` (src/search.py, lines 23-28): the file
content is split into lines, each line is stripped, and the results form the
known-links set (modelled as a list used only through membership; a missing
file behaves exactly like the empty content). -/
def read_known_links (file : PyStr) : List PyStr :=
  (pyFileLines file).map pyStrip

/-- Embedding of `write_known_links` (src/search.py, lines 30-41): each new
link is appended to the file followed by a newline.  `new_links` is the
iteration sequence of the Python set; the claims proved below are invariant
under its order. -/
def write_known_links (file : PyStr) (new_links : List PyStr) : PyStr :=
  if new_links = [] then file
  else file ++ (new_links.map (fun l => l ++ ['\n'])).flatten

/-! ## Timestamps (src/search.py, lines 181-189 and 206-208)

`datetime.fromisoformat` is embedded on the sub-domain of full
`YYYY-MM-DDTHH:MM:SS` strings with an optional `±HH:MM` offset (the forms the
upstream `created_time` field takes); on this sub-domain the embedding agrees
with CPython, including its range validation.  A datetime value is a record
of clock-face fields plus an optional UTC offset (`none` = naive). -/

/-- Python `datetime` restricted to whole seconds: clock-face fields plus an
optional UTC offset in minutes (`none` models a naive datetime). -/
structure PyDateTime where
  year : Nat
  month : Nat
  day : Nat
  hour : Nat
  minute : Nat
  second : Nat
  tzOffsetMinutes : Option Int
  deriving DecidableEq, Repr

/-- ASCII decimal digit test. -/
def isDig (c : Char) : Bool := '0' ≤ c ∧ c ≤ '9'

/-- Value of an ASCII digit character. -/
def digVal (c : Char) : Nat := c.toNat - 48

/-- Two-digit decimal value. -/
def dig2 (a b : Char) : Nat := digVal a * 10 + digVal b

/-- Four-digit decimal value. -/
def dig4 (a b c d : Char) : Nat :=
  digVal a * 1000 + digVal b * 100 + digVal c * 10 + digVal d

/-- Gregorian leap-year test (as `datetime`'s calendar validation uses). -/
def isLeapYear (y : Nat) : Bool := y % 4 = 0 ∧ (y % 100 ≠ 0 ∨ y % 400 = 0)

/-- Number of days in a month of a given year. -/
def daysInMonth (y m : Nat) : Nat :=
  if m = 2 then (if isLeapYear y then 29 else 28)
  else if m = 4 ∨ m = 6 ∨ m = 9 ∨ m = 11 then 30 else 31

/-- Parse the 19-character `YYYY-MM-DDTHH:MM:SS` core of an ISO-8601 string,
validating every field range exactly as `datetime.fromisoformat` does
(year ≥ 1, calendar-valid day, 24-hour clock). -/
def parseBaseDT : PyStr → Option PyDateTime
  | [y1, y2, y3, y4, '-', m1, m2, '-', d1, d2c, 'T',
     h1, h2, ':', n1, n2, ':', s1, s2] =>
      if isDig y1 ∧ isDig y2 ∧ isDig y3 ∧ isDig y4 ∧ isDig m1 ∧ isDig m2 ∧
         isDig d1 ∧ isDig d2c ∧ isDig h1 ∧ isDig h2 ∧ isDig n1 ∧ isDig n2 ∧
         isDig s1 ∧ isDig s2 then
        let y := dig4 y1 y2 y3 y4
        let mo := dig2 m1 m2
        let d := dig2 d1 d2c
        let h := dig2 h1 h2
        let mi := dig2 n1 n2
        let s := dig2 s1 s2
        if 1 ≤ y ∧ 1 ≤ mo ∧ mo ≤ 12 ∧ 1 ≤ d ∧ d ≤ daysInMonth y mo ∧
           h ≤ 23 ∧ mi ≤ 59 ∧ s ≤ 59 then
          some ⟨y, mo, d, h, mi, s, none⟩
        else none
      else none
  | _ => none

/-- Parse a `±HH:MM` UTC-offset suffix into minutes, validating that the
offset is a legal `timezone` value (minutes ≤ 59, magnitude < 24 hours). -/
def parseOffsetMin : PyStr → Option Int
  | [sg, a, b, ':', c, d] =>
      if (sg = '+' ∨ sg = '-') ∧ isDig a ∧ isDig b ∧ isDig c ∧ isDig d then
        let hh := dig2 a b
        let mm := dig2 c d
        if mm ≤ 59 ∧ hh * 60 + mm < 1440 then
          some (if sg = '-' then -((hh * 60 + mm : Nat) : Int) else ((hh * 60 + mm : Nat) : Int))
        else none
      else none
  | _ => none

/-- Embedding of `datetime.fromisoformat` on full date-time strings: the
19-character core, optionally followed by an explicit `±HH:MM` offset. -/
def pyFromIso (s : PyStr) : Option PyDateTime :=
  match parseBaseDT (s.take 19), s.drop 19 with
  | some base, [] => some base
  | some base, rest =>
      match parseOffsetMin rest with
      | some off => some { base with tzOffsetMinutes := some off }
      | none => none
  | none, _ => none

/-- Embedding of `datetime.replace(tzinfo=timezone.utc)`: the clock-face
fields are kept verbatim and the offset is overwritten with UTC. -/
def replaceTzUtc (dt : PyDateTime) : PyDateTime :=
  { dt with tzOffsetMinutes := some 0 }

/-- Embedding of `datetime.isoformat()` for whole-second datetimes:
`YYYY-MM-DDTHH:MM:SS`, plus `±HH:MM` when the datetime is aware. -/
def pyIsoformat (dt : PyDateTime) : PyStr :=
  pad4 dt.year ++ ['-'] ++ pad2 dt.month ++ ['-'] ++ pad2 dt.day ++ ['T'] ++
  pad2 dt.hour ++ [':'] ++ pad2 dt.minute ++ [':'] ++ pad2 dt.second ++
  (match dt.tzOffsetMinutes with
   | none => []
   | some o =>
       (if o < 0 then ['-'] else ['+']) ++
       pad2 (o.natAbs / 60) ++ [':'] ++ pad2 (o.natAbs % 60))

/-- Days from 1970-01-01 of a Gregorian civil date (standard
days-from-civil formula); used only to give datetimes their timeline
meaning. -/
def daysFromCivil (y m d : Nat) : Int :=
  let yAdj : Nat := y - (if m ≤ 2 then 1 else 0)
  let era : Nat := yAdj / 400
  let yoe : Nat := yAdj - era * 400
  let mp : Nat := (m + 9) % 12
  let doy : Nat := (153 * mp + 2) / 5 + (d - 1)
  let doe : Nat := yoe * 365 + yoe / 4 - yoe / 100 + doy
  (era * 146097 + doe : Int) - 719468

/-- The instant (epoch seconds) a datetime denotes: clock-face time minus
its UTC offset; a naive datetime is read as UTC (the reading under which a
trailing `Z` or an offset-free upstream string denotes its clock face). -/
def instantSeconds (dt : PyDateTime) : Int :=
  daysFromCivil dt.year dt.month dt.day * 86400 +
    (dt.hour * 3600 + dt.minute * 60 + dt.second : Nat) -
    60 * dt.tzOffsetMinutes.getD 0

/-- The clock-face fields of a datetime (everything but the offset). -/
def clockFace (dt : PyDateTime) : Nat × Nat × Nat × Nat × Nat × Nat :=
  (dt.year, dt.month, dt.day, dt.hour, dt.minute, dt.second)

/-- Embedding of the timestamp computation of `send_detailed_to_discord`
(src/search.py, lines 181-189 and 206-208): a truthy `created_time` has its
trailing `Z`s stripped, is parsed, and on success is re-emitted with the
offset replaced by UTC; a parse failure (the caught `ValueError`) leaves the
timestamp absent. -/
def formatTimestamp (created_time : Option PyStr) : Option PyStr :=
  match created_time with
  | none => none
  | some ct =>
      if ct = [] then none
      else
        match pyFromIso (rstripZ ct) with
        | none => none
        | some dt => some (pyIsoformat (replaceTzUtc dt))

/-! ## Item records and the notification formatter
(src/search.py, lines 141-241)

Python dict lookups are embedded with `Option`: for fields read through
`dict.get(key, default)` where a JSON `null` behaves differently from an
absent key, the type is `Option (Option _)` (outer = key present, inner =
non-null).  Fields whose absent and null cases are indistinguishable to the
program are collapsed to a single `Option`. -/

/-- `dict.get key default`: an absent key yields the default, a present key
yields its (possibly `None`) value. -/
def pyGet {α : Type} (field : Option (Option α)) (dflt : α) : Option α :=
  match field with
  | none => some dflt
  | some v => v

/-- The one unhandled exception the formatter can raise: `[-1]` on an empty
picture-size list (src/search.py, line 196). -/
inductive PyExc where
  | indexError
  deriving DecidableEq, Repr

/-- One entry of a `pictures.sizes` array; `link` collapses absent and null
(the program only reads it through `get`). -/
structure PSize where
  link : Option PyStr
  deriving DecidableEq, Repr

/-- A `pictures` object: its ranked `sizes` array, when the key is present. -/
structure Pictures where
  sizes : Option (List PSize)
  deriving DecidableEq, Repr

/-- The `user` object of an item. -/
structure VUser where
  name : Option (Option PyStr)
  link : Option (Option PyStr)
  pictures : Option Pictures
  deriving DecidableEq, Repr

/-- One upstream item record, with exactly the fields `search.py` reads.
`link` and `created_time` collapse absent and null (both are falsy where the
program truth-tests them); `user = none` models an absent key (the program
then works on the empty dict). -/
structure Video where
  link : Option PyStr
  name : Option (Option PyStr)
  description : Option (Option PyStr)
  pictures : Option Pictures
  user : Option VUser
  width : Option (Option Int)
  height : Option (Option Int)
  created_time : Option PyStr
  duration : Option Int
  deriving DecidableEq, Repr

/-- One embed field (`name`/`value`/`inline`). -/
structure EField where
  name : PyStr
  value : PyStr
  isInline : Bool
  deriving DecidableEq, Repr

/-- One formatted embed, with the components the claims speak about. -/
structure Embed where
  title : PyStr
  url : PyStr
  description : PyStr
  imageUrl : PyStr
  fields : List EField
  authorName : Option PyStr
  authorUrl : Option PyStr
  authorIconUrl : Option PyStr
  timestamp : Option PyStr
  deriving DecidableEq, Repr

/-- Rendering of `video.get('width', 'N/A')` inside the f-string
`f"{w}x{h}"`: absent key → `N/A`, JSON null → `None`, number → its digits. -/
def renderDim (f : Option (Option Int)) : PyStr :=
  match f with
  | none => pys "N/A"
  | some none => pys "None"
  | some (some n) => pys (toString n)

/-- The formatter's title: `trim_text(video.get('name', 'No Title'), 256)`
(src/search.py, line 179). -/
def embedTitle (v : Video) : PyStr :=
  trim_text (pyGet v.name (pys "No Title")) 256

/-- The formatter's description before the size clamp:
`trim_text(video.get('description', 'No description available'), 4096)`
(src/search.py, lines 144-145). -/
def embedDesc0 (v : Video) : PyStr :=
  trim_text (pyGet v.description (pys "No description available")) 4096

/-- The three metadata fields attached to every embed
(src/search.py, lines 161-177). -/
def embedFields (v : Video) (keyword : PyStr) : List EField :=
  [⟨pys "Matched On", trim_text (some keyword) 1024, true⟩,
   ⟨pys "Resolution",
    trim_text (some (renderDim v.width ++ ['x'] ++ renderDim v.height)) 1024, true⟩,
   ⟨pys "Duration", trim_text (some (format_duration v.duration)) 1024, true⟩]

/-- `video.get('pictures', {}).get('sizes', [{}])`: the ranked size list, with
the one-empty-dict default when either key is absent. -/
def sizesOrDefault (p : Option Pictures) : List PSize :=
  match p with
  | none => [⟨none⟩]
  | some pic =>
      match pic.sizes with
      | none => [⟨none⟩]
      | some l => l

/-- The thumbnail selection `...sizes[-1].get('link', '')`
(src/search.py, line 196); `[-1]` on an empty `sizes` array raises
`IndexError`, the formatter's only unhandled exception. -/
def thumbnailUrl (v : Video) : Except PyExc PyStr :=
  match (sizesOrDefault v.pictures).getLast? with
  | none => Except.error PyExc.indexError
  | some sz => Except.ok (sz.link.getD [])

/-- The avatar selection (src/search.py, lines 151-155): guarded by the
truthiness of `user.get('pictures')` (a present, nonempty dict) and of its
`sizes` list, so this path cannot raise. -/
def userAvatarUrl (u : Option VUser) : Option PyStr :=
  match u with
  | none => none
  | some usr =>
      match usr.pictures with
      | none => none
      | some pic =>
          match pic.sizes with
          | some (s0 :: rest) => ((s0 :: rest).getLast?).bind (·.link)
          | _ => none

/-- The pre-clamp total length of an embed (src/search.py, lines 211-213):
title plus description plus every field name and value. -/
def preClampTotal (v : Video) (keyword : PyStr) : Nat :=
  (embedTitle v).length + (embedDesc0 v).length +
    ((embedFields v keyword).map (fun f => f.name.length + f.value.length)).sum

/-- Embedding of the per-item part of `send_detailed_to_discord`
(src/search.py, lines 143-221): build one embed, then re-truncate the
description when the total length exceeds 6000. -/
def build_embed (video : Video) (keyword : PyStr) : Except PyExc Embed :=
  match thumbnailUrl video with
  | Except.error e => Except.error e
  | Except.ok img =>
      let title := embedTitle video
      let description := embedDesc0 video
      let fields := embedFields video keyword
      let total := preClampTotal video keyword
      let description2 :=
        if total > 6000 then
          trim_text (some description) (6000 - ((total : Int) - (description.length : Int)))
        else description
      Except.ok
        { title := title
          url := video.link.getD []
          description := description2
          imageUrl := img
          fields := fields
          authorName := match video.user with
                        | none => some (pys "Unknown User")
                        | some u => pyGet u.name (pys "Unknown User")
          authorUrl := match video.user with
                       | none => some []
                       | some u => pyGet u.link []
          authorIconUrl := userAvatarUrl video.user
          timestamp := formatTimestamp video.created_time }

/-- Python `keyword.split(': ')`: split on the two-character separator,
left to right, non-overlapping. -/
def splitColonSpace : PyStr → List PyStr
  | [] => [[]]
  | ':' :: ' ' :: rest => [] :: splitColonSpace rest
  | c :: rest =>
      match splitColonSpace rest with
      | [] => [[c]]
      | p :: ps => (c :: p) :: ps

/-- The leading content line's title (src/search.py, line 228). -/
def content_title (keyword : PyStr) : PyStr :=
  if (pys "User:").isPrefixOf keyword then
    pys "User Upload: " ++ (splitColonSpace keyword).getLastD []
  else pys "Keyword Match: " ++ keyword

/-- The chunking of the batch loop `range(0, len(embeds), 10)`
(src/search.py, lines 230-231): successive slices of at most 10. -/
def chunks10 {α : Type} : List α → List (List α)
  | [] => []
  | e :: es => ((e :: es).take 10) :: chunks10 ((e :: es).drop 10)
termination_by l => l.length
decreasing_by simp; omega

/-- One outbound webhook call: the JSON document POSTed to the webhook URL
(optional `content` line plus up to 10 embeds). -/
structure WebPayload where
  content : Option PyStr
  embeds : List Embed
  deriving DecidableEq, Repr

/-- The leading content line of the first batch (src/search.py, line 234). -/
def sendContentLine (keyword : PyStr) : PyStr :=
  pys "**New videos found for " ++ content_title keyword ++ pys "**"

/-- The embed-building loop of `send_detailed_to_discord` (src/search.py,
lines 143-221), in list order; the first raising item aborts the rest. -/
def buildEmbeds (video_data : List Video) (keyword : PyStr) :
    Except PyExc (List Embed) :=
  match video_data with
  | [] => Except.ok []
  | v :: vs =>
      match build_embed v keyword with
      | Except.error e => Except.error e
      | Except.ok emb =>
          match buildEmbeds vs keyword with
          | Except.error e => Except.error e
          | Except.ok embs => Except.ok (emb :: embs)

/-- Embedding of `send_detailed_to_discord` (src/search.py, lines 141-241) as
the list of webhook payloads it POSTs, in call order: every embed is built
first, then the embeds are sent in batches of at most 10, the first batch
carrying the content line.  An `IndexError` while building an embed aborts
the whole call before any POST (the batching loop is only reached after the
embed loop completes).  The POST itself goes through `request_with_retries`,
whose failure is swallowed, so each payload is exactly one delivery call. -/
def send_detailed_to_discord (video_data : List Video) (keyword : PyStr) :
    Except PyExc (List WebPayload) :=
  match buildEmbeds video_data keyword with
  | Except.error e => Except.error e
  | Except.ok embeds =>
      Except.ok
        (match chunks10 embeds with
         | [] => []
         | c :: cs =>
             { content := some (sendContentLine keyword), embeds := c } ::
               cs.map (fun b => { content := none, embeds := b }))

/-! ## The rate-limited request executor
(src/search.py, lines 43-94)

`request_with_retries` is embedded over an explicit network environment: a
function from the attempt index to what the HTTP layer does on that attempt.
`handle_rate_limiting` sleeps against the wall clock; since it runs only
after a success status and none of the claims constrain its sleep lengths,
its invocation is recorded as a trace event rather than timed. -/

/-- What the HTTP layer does on one attempt: raise a transport-level
`RequestException`, or return a response with a status code, a flag saying
whether its body decodes as JSON, and an optional server-suggested retry
delay in the body (which the source never reads). -/
inductive NetOutcome where
  | raiseTransport
  | response (status : Nat) (decodeOk : Bool) (retryAfterBody : Option Int)
  deriving DecidableEq, Repr

/-- Observable events of one `request_with_retries` call, in order. -/
inductive ExecEv where
  /-- an HTTP request was actually issued (`requests.get`/`requests.post`) -/
  | issueCall
  /-- `handle_rate_limiting` ran (success-status path) -/
  | rateLimitHandled
  /-- `time.sleep(DEFAULT_SLEEP_INTERVAL)` in an `except` branch -/
  | retrySleep
  deriving DecidableEq, Repr

/-- Result and trace of a `request_with_retries` call: `result = some r`
means some attempt returned (`r = some body` for a decoded GET, `r = none`
for a POST, whose body is ignored); `result = none` means the 5-attempt
budget was exhausted and the function returned `None`.  `attempts` counts
loop iterations. -/
structure ExecTrace where
  result : Option (Option Nat)
  attempts : Nat
  events : List ExecEv
  deriving DecidableEq, Repr

/-- `RETRY_LIMIT` (src/search.py, line 20). -/
def RETRY_LIMIT : Nat := 5

/-- One iteration of the retry loop (the `try` body and its handlers),
returning either the events it emitted plus a returned value, or the events
plus "exception caught, continue".  An unsupported verb raises `ValueError`
*inside* the `try`, so it lands in the generic `except ValueError` handler;
`raise_for_status` raises for statuses ≥ 400; a JSON decode failure on a GET
raises after `handle_rate_limiting` has already run. -/
def attemptOnce (lowered : PyStr) (out : NetOutcome) :
    List ExecEv × Option (Option Nat) :=
  if lowered = pys "get" ∨ lowered = pys "post" then
    match out with
    | NetOutcome.raiseTransport => ([ExecEv.issueCall, ExecEv.retrySleep], none)
    | NetOutcome.response status decodeOk _ =>
        if 400 ≤ status then ([ExecEv.issueCall, ExecEv.retrySleep], none)
        else if lowered = pys "get" then
          if decodeOk then
            ([ExecEv.issueCall, ExecEv.rateLimitHandled], some (some status))
          else
            ([ExecEv.issueCall, ExecEv.rateLimitHandled, ExecEv.retrySleep], none)
        else ([ExecEv.issueCall, ExecEv.rateLimitHandled], some none)
  else ([ExecEv.retrySleep], none)

/-- The retry loop of `request_with_retries`, from attempt index `i` with
`fuel` iterations left. -/
def rwrAux (lowered : PyStr) (env : Nat → NetOutcome) : Nat → Nat → ExecTrace
  | _, 0 => ⟨none, 0, []⟩
  | i, fuel + 1 =>
      match attemptOnce lowered (env i) with
      | (evs, some r) => ⟨some r, 1, evs⟩
      | (evs, none) =>
          let rest := rwrAux lowered env (i + 1) fuel
          ⟨rest.result, rest.attempts + 1, evs ++ rest.events⟩

/-- Embedding of `request_with_retries` (src/search.py, lines 70-94): the
decoded GET body is abstracted to the status code (no claim reads it). -/
def request_with_retries (method : PyStr) (env : Nat → NetOutcome) : ExecTrace :=
  rwrAux (method.map Char.toLower) env 0 RETRY_LIMIT

/-! ## The run orchestrator (src/search.py, lines 243-296) -/

/-- One upstream response as `main` consumes it: its `data` array
(`response.get('data', [])`; an absent array behaves as empty). -/
structure VResp where
  data : List Video
  deriving DecidableEq, Repr

/-- One entry of the `new_videos_to_post` dict, in insertion order:
(link, (item, keyword)). -/
abbrev NvpEntry := PyStr × Video × PyStr

/-- The filtering step shared by both poll loops (src/search.py, lines
256-260 and 268-273): an item is claimed iff its link is truthy, not in the
loaded ledger snapshot, and not already claimed this run; insertion keeps
first-claim order. -/
def collectStep (known : List PyStr) (keyword : PyStr) (nvp : List NvpEntry)
    (item : Video) : List NvpEntry :=
  match item.link with
  | none => nvp
  | some l =>
      if l ≠ [] ∧ l ∉ known ∧ ¬ nvp.any (fun e => e.1 = l) then
        nvp ++ [(l, item, keyword)]
      else nvp

/-- The inner loop over one response's items. -/
def collectFromResponse (known : List PyStr) (keyword : PyStr) (items : List Video)
    (nvp : List NvpEntry) : List NvpEntry :=
  items.foldl (collectStep known keyword) nvp

/-- The body of one poll-loop iteration. -/
def pollStep (known : List PyStr) (fetch : PyStr → Option VResp)
    (mkKeyword : PyStr → PyStr) (acc : List NvpEntry × List PyStr) (q : PyStr) :
    List NvpEntry × List PyStr :=
  if q = [] then acc
  else
    match fetch q with
    | none => (acc.1, acc.2 ++ [q])
    | some resp => (collectFromResponse known (mkKeyword q) resp.data acc.1, acc.2 ++ [q])

/-- One poll loop (`for query in SEARCH_QUERIES` / `for user_id in
MONITORED_USERS`, src/search.py, lines 251-273): falsy entries are skipped
before the executor is invoked; a `None` response (executor failure)
contributes nothing.  Returns the updated claim dict and the entries for
which the executor was invoked. -/
def pollPhase (known : List PyStr) (fetch : PyStr → Option VResp)
    (mkKeyword : PyStr → PyStr) (entries : List PyStr) (nvp0 : List NvpEntry) :
    List NvpEntry × List PyStr :=
  entries.foldl (pollStep known fetch mkKeyword) (nvp0, [])

/-- Grouping of claimed items by the keyword that found them
(src/search.py, lines 277-282): dict-of-lists in first-appearance order. -/
def addToGroup (groups : List (PyStr × List Video)) (k : PyStr) (v : Video) :
    List (PyStr × List Video) :=
  match groups with
  | [] => [(k, [v])]
  | (k', vs) :: rest =>
      if k' = k then (k', vs ++ [v]) :: rest else (k', vs) :: addToGroup rest k v

/-- `videos_to_send_by_keyword` built from `new_videos_to_post.items()`. -/
def groupByKeyword (nvp : List NvpEntry) : List (PyStr × List Video) :=
  nvp.foldl (fun g e => addToGroup g e.2.2 e.2.1) []

/-- The delivery loop (src/search.py, lines 285-286): groups are sent in
order; an unhandled exception aborts the remaining groups (payloads already
POSTed stay POSTed) and propagates. -/
def deliverGroups : List (PyStr × List Video) → List WebPayload × Option PyExc
  | [] => ([], none)
  | (k, vids) :: rest =>
      match send_detailed_to_discord vids k with
      | Except.error e => ([], some e)
      | Except.ok ps =>
          match deliverGroups rest with
          | (more, err) => (ps ++ more, err)

/-- Everything observable about one run of `main`. -/
structure RunResult where
  /-- queries for which `search_vimeo` (hence the executor) was invoked -/
  searchCalls : List PyStr
  /-- user ids for which `get_user_uploads` was invoked -/
  uploadCalls : List PyStr
  /-- webhook payloads POSTed, in order -/
  payloads : List WebPayload
  /-- the `new_videos_to_post` dict after filtering, in insertion order -/
  nvp : List NvpEntry
  /-- the links handed to `write_known_links` (empty if the write was never
  reached) -/
  committed : List PyStr
  /-- the ledger file content when the run ends -/
  file : PyStr
  /-- the exception caught by the top-level handler, if any -/
  caught : Option PyExc
  deriving DecidableEq, Repr

/-- Embedding of `main` (src/search.py, lines 243-296) for one run:
read the ledger, poll queries then users, filter into
`new_videos_to_post`, group, deliver, and append the claimed links —
with the whole body inside the top-level `try`, so an exception raised
while delivering skips the ledger write and is caught.  `search` and
`uploads` give the executor's result for each entry (`none` = all retries
failed or request skipped upstream). -/
def mainRun (file0 : PyStr) (search uploads : PyStr → Option VResp)
    (queries users : List PyStr) : RunResult :=
  let known := read_known_links file0
  let p1 := pollPhase known search (fun q => q) queries []
  let p2 := pollPhase known uploads (fun uid => pys "User: " ++ uid) users p1.1
  let nvp := p2.1
  if nvp = [] then
    ⟨p1.2, p2.2, [], nvp, [], file0, none⟩
  else
    match deliverGroups (groupByKeyword nvp) with
    | (ps, none) =>
        let newLinks := nvp.map (fun e => e.1)
        ⟨p1.2, p2.2, ps, nvp, newLinks, write_known_links file0 newLinks, none⟩
    | (ps, some e) => ⟨p1.2, p2.2, ps, nvp, [], file0, some e⟩

/-- The (keyword, item) pairs one poll loop examines, in order: for each
nonempty entry, the items of its response (nothing for a failed fetch),
tagged with the keyword that would claim them. -/
def phaseDiscoveries (fetch : PyStr → Option VResp) (mkKeyword : PyStr → PyStr)
    (entries : List PyStr) : List (PyStr × Video) :=
  ((entries.filter (fun q => q ≠ [])).map
      (fun q => match fetch q with
                | none => []
                | some resp => resp.data.map (fun v => (mkKeyword q, v)))).flatten

/-- The (keyword, item) pairs the run examines, in configured processing
order: every nonempty query's response items first, then every nonempty
monitored user's.  This is the order against which "discovered first" is
stated. -/
def discoveries (search uploads : PyStr → Option VResp)
    (queries users : List PyStr) : List (PyStr × Video) :=
  phaseDiscoveries search (fun q => q) queries ++
    phaseDiscoveries uploads (fun u => pys "User: " ++ u) users

/-- The `new_videos_to_post` dict a run computes (its insertion-ordered
association list). -/
def runNvp (file0 : PyStr) (search uploads : PyStr → Option VResp)
    (queries users : List PyStr) : List NvpEntry :=
  (pollPhase (read_known_links file0) uploads (fun uid => pys "User: " ++ uid) users
    (pollPhase (read_known_links file0) search (fun q => q) queries []).1).1

/-! ## Auxiliary definitions used by the theorems and their witnesses -/

/-- The total serialized length the source measures (src/search.py,
lines 211-213) for an already-built embed. -/
def embedTotalLength (e : Embed) : Nat :=
  e.title.length + e.description.length +
    (e.fields.map (fun f => f.name.length + f.value.length)).sum

/-- Does an `Except` computation succeed?  (Used to discharge success
hypotheses at concrete inputs.) -/
def exceptIsOk {e a : Type} : Except e a → Bool
  | Except.ok _ => true
  | Except.error _ => false

/-- A minimal well-formed upstream item (only a truthy link). -/
def plainVideo : Video :=
  { link := some (pys "https://vimeo.com/1"), name := none, description := none,
    pictures := none, user := none, width := none, height := none,
    created_time := none, duration := none }

/-- An item whose `pictures.sizes` array is present but empty: selecting its
thumbnail raises `IndexError` (src/search.py, line 196). -/
def crashVideo : Video :=
  { plainVideo with
      link := some (pys "https://vimeo.com/9")
      pictures := some ⟨some []⟩ }

/-- An item whose measured embed length exceeds 6000: a 4200-character
description plus huge-integer dimensions that saturate the resolution field.
Used as the C6 witness input. -/
def hugeVideo : Video :=
  { plainVideo with
      description := some (some (List.replicate 4200 'd'))
      width := some (some ((10 : Int) ^ 600))
      height := some (some ((10 : Int) ^ 600)) }

/-! ## Basic truncation lemmas -/

theorem trim_text_of_le (t : PyStr) (m : Int) (h : (t.length : Int) ≤ m) :
    trim_text (some t) m = t := by
  simp only [trim_text]
  rw [if_neg (not_lt.mpr h)]

theorem trim_text_of_gt (t : PyStr) (m : Int) (h3 : 3 ≤ m)
    (h : (t.length : Int) > m) :
    trim_text (some t) m = t.take (m - 3).toNat ++ pys "..." := by
  simp only [trim_text]
  rw [if_pos h]
  simp only [if_true, pyTakeI]
  rw [if_pos (by omega)]

theorem length_trim_text_le (t : PyStr) (m : Int) (h3 : 3 ≤ m) :
    ((trim_text (some t) m).length : Int) ≤ m := by
  by_cases h : (t.length : Int) > m
  · rw [trim_text_of_gt t m h3 h]
    have hmin : (t.take (m - 3).toNat).length = min (m - 3).toNat t.length :=
      List.length_take _ _
    have hp : (pys "...").length = 3 := rfl
    rw [List.length_append, hmin, hp]
    omega
  · rw [trim_text_of_le t m (not_lt.mp h)]
    omega

theorem length_trim_text_eq (t : PyStr) (m : Int) (h3 : 3 ≤ m)
    (h : (t.length : Int) > m) :
    ((trim_text (some t) m).length : Int) = m := by
  rw [trim_text_of_gt t m h3 h]
  have hmin : (t.take (m - 3).toNat).length = min (m - 3).toNat t.length :=
    List.length_take _ _
  have hp : (pys "...").length = 3 := rfl
  rw [List.length_append, hmin, hp]
  omega

/-- C7: a 5000-character description is truncated by the per-item rule
(`trim_text(description, 4096)`, src/search.py, line 145) to exactly its
first 4093 characters followed by the 3-character ellipsis marker, total
length exactly 4096; any description of length at most 4096 passes through
unchanged. -/
theorem C7_description_truncation (t : PyStr) :
    (t.length = 5000 →
       trim_text (some t) 4096 = t.take 4093 ++ pys "..." ∧
       (trim_text (some t) 4096).length = 4096) ∧
    (t.length ≤ 4096 → trim_text (some t) 4096 = t) := by
  constructor
  · intro h5
    have hgt : ((t.length : Int) > 4096) := by omega
    have heq : trim_text (some t) 4096 = t.take 4093 ++ pys "..." := by
      have := trim_text_of_gt t 4096 (by omega) hgt
      norm_num at this
      exact this
    refine ⟨heq, ?_⟩
    have := length_trim_text_eq t 4096 (by omega) hgt
    omega
  · intro h
    exact trim_text_of_le t 4096 (by exact_mod_cast h)

/-- Witness for C7 at a concrete 5000-character description and a concrete
short one. -/
theorem C7_witness :
    trim_text (some (List.replicate 5000 'a')) 4096 =
      List.replicate 4093 'a' ++ pys "..." ∧
    (trim_text (some (List.replicate 5000 'a')) 4096).length = 4096 ∧
    trim_text (some (List.replicate 100 'b')) 4096 = List.replicate 100 'b' := by
  have h1 := (C7_description_truncation (List.replicate 5000 'a')).1
    (by rw [List.length_replicate])
  have h2 := (C7_description_truncation (List.replicate 100 'b')).2
    (by rw [List.length_replicate]; omega)
  refine ⟨?_, h1.2, h2⟩
  rw [h1.1, List.take_replicate]
  norm_num

/-! ## C6: the 6000-character size ceiling -/

theorem length_embedTitle_le (v : Video) : (embedTitle v).length ≤ 256 := by
  have h := length_trim_text_le (pyGet v.name (pys "No Title")).iget 256 (by omega)
  unfold embedTitle
  cases hx : pyGet v.name (pys "No Title") with
  | none => simp [trim_text]
  | some t =>
      have := length_trim_text_le t 256 (by omega)
      omega

theorem length_embedDesc0_le (v : Video) : (embedDesc0 v).length ≤ 4096 := by
  unfold embedDesc0
  cases hx : pyGet v.description (pys "No description available") with
  | none => simp [trim_text]
  | some t =>
      have := length_trim_text_le t 4096 (by omega)
      omega

/-- The non-description part of the measured total: title plus all field
names and values; it is bounded by 256 + 28 + 3·1024 = 3356. -/
theorem fields_other_le (v : Video) (k : PyStr) :
    (embedTitle v).length +
      ((embedFields v k).map (fun f => f.name.length + f.value.length)).sum ≤ 3356 := by
  have ht := length_embedTitle_le v
  have h1 := length_trim_text_le k 1024 (by omega)
  have h2 := length_trim_text_le (renderDim v.width ++ ['x'] ++ renderDim v.height) 1024 (by omega)
  have h3 := length_trim_text_le (format_duration v.duration) 1024 (by omega)
  simp only [embedFields, List.map_cons, List.map_nil, List.sum_cons, List.sum_nil]
  have hn1 : (pys "Matched On").length = 10 := rfl
  have hn2 : (pys "Resolution").length = 10 := rfl
  have hn3 : (pys "Duration").length = 8 := rfl
  simp only [hn1, hn2, hn3]
  omega

/-- C6: for every formatted item, if the measured sum of title, description
and all field names/values exceeds 6000, the description is re-truncated to
exactly the remaining budget and the emitted embed's total length is exactly
6000; in every case the emitted total is at most 6000. -/
theorem C6_size_ceiling (v : Video) (k : PyStr) (e : Embed)
    (h : build_embed v k = Except.ok e) :
    embedTotalLength e ≤ 6000 ∧
    (6000 < preClampTotal v k →
       e.description.length = 6000 - (preClampTotal v k - (embedDesc0 v).length) ∧
       embedTotalLength e = 6000) := by
  unfold build_embed at h
  cases hT : thumbnailUrl v with
  | error ex => rw [hT] at h; cases h
  | ok img =>
      rw [hT] at h
      dsimp only at h
      have hother := fields_other_le v k
      have hD := length_embedDesc0_le v
      have htot : preClampTotal v k =
          (embedDesc0 v).length +
            ((embedTitle v).length +
              ((embedFields v k).map (fun f => f.name.length + f.value.length)).sum) := by
        unfold preClampTotal; omega
      by_cases hc : preClampTotal v k > 6000
      · rw [if_pos hc] at h
        have he := (Except.ok.injEq _ _).mp h
        subst he
        have h3 : (3 : Int) ≤ 6000 - ((preClampTotal v k : Int) - ((embedDesc0 v).length : Int)) := by
          omega
        have hgt : ((embedDesc0 v).length : Int) >
            6000 - ((preClampTotal v k : Int) - ((embedDesc0 v).length : Int)) := by
          omega
        have hlen := length_trim_text_eq (embedDesc0 v) _ h3 hgt
        simp only [embedTotalLength]
        constructor
        · omega
        · intro _
          constructor
          · omega
          · omega
      · rw [if_neg hc] at h
        have he := (Except.ok.injEq _ _).mp h
        subst he
        simp only [embedTotalLength]
        constructor
        · omega
        · intro hcon; omega

/-! ## C8: batching into chunks of 10 -/

theorem chunks10_nil {α : Type} : chunks10 ([] : List α) = [] := by
  rw [chunks10]

theorem chunks10_cons {α : Type} (e : α) (es : List α) :
    chunks10 (e :: es) = ((e :: es).take 10) :: chunks10 ((e :: es).drop 10) := by
  rw [chunks10]

theorem chunks10_flatten {α : Type} (l : List α) : (chunks10 l).flatten = l := by
  induction l using chunks10.induct with
  | case1 => simp [chunks10]
  | case2 e es ih =>
      rw [chunks10]
      simp only [List.flatten_cons, ih, List.take_append_drop]

theorem chunks10_length {α : Type} (l : List α) :
    (chunks10 l).length = (l.length + 9) / 10 := by
  induction l using chunks10.induct with
  | case1 => simp [chunks10]
  | case2 e es ih =>
      rw [chunks10]
      simp only [List.length_cons, ih, List.length_drop]
      omega

theorem chunks10_mem_le {α : Type} (l : List α) :
    ∀ c ∈ chunks10 l, c.length ≤ 10 := by
  induction l using chunks10.induct with
  | case1 => simp [chunks10]
  | case2 e es ih =>
      rw [chunks10]
      intro c hc
      rcases List.mem_cons.mp hc with h | h
      · subst h; rw [List.length_take]; omega
      · exact ih c h

theorem chunks10_getElem? {α : Type} (l : List α) :
    ∀ i, i < (chunks10 l).length →
      (chunks10 l)[i]? = some ((l.drop (10 * i)).take 10) := by
  induction l using chunks10.induct with
  | case1 => intro i hi; rw [chunks10_nil] at hi; simp at hi
  | case2 e es ih =>
      intro i hi
      rw [chunks10_cons] at hi ⊢
      cases i with
      | zero => simp
      | succ j =>
          simp only [List.getElem?_cons_succ]
          rw [ih j (by simpa using hi), List.drop_drop]
          congr 3
          omega

theorem buildEmbeds_length (vids : List Video) (k : PyStr) :
    ∀ es, buildEmbeds vids k = Except.ok es → es.length = vids.length := by
  induction vids with
  | nil => intro es h; simp only [buildEmbeds] at h; cases h; rfl
  | cons v vs ih =>
      intro es h
      simp only [buildEmbeds] at h
      cases hb : build_embed v k with
      | error e => rw [hb] at h; cases h
      | ok emb =>
          rw [hb] at h
          cases hr : buildEmbeds vs k with
          | error e => rw [hr] at h; cases h
          | ok embs =>
              rw [hr] at h
              cases h
              simp [ih embs hr]

theorem send_payload_embeds (vids : List Video) (k : PyStr) (ps : List WebPayload)
    (es : List Embed) (hB : buildEmbeds vids k = Except.ok es)
    (h : send_detailed_to_discord vids k = Except.ok ps) :
    ps.map (fun p => p.embeds) = chunks10 es := by
  unfold send_detailed_to_discord at h
  rw [hB] at h
  dsimp only at h
  cases hc : chunks10 es with
  | nil => rw [hc] at h; cases h; rfl
  | cons c cs =>
      rw [hc] at h
      cases h
      simp [Function.comp_def]

/-- C8: for a group of `n` new items under one match reason, the formatter
makes `⌈n/10⌉` outbound delivery calls, each carrying at most 10 embeds, the
`i`-th carrying exactly `min 10 (n - 10·i)` embeds in input order (their
concatenation is exactly the built embed list); only the first call carries
the leading content line identifying the match reason, later calls carry
only embeds. -/
theorem C8_batching (vids : List Video) (k : PyStr) (ps : List WebPayload)
    (h : send_detailed_to_discord vids k = Except.ok ps) :
    ps.length = (vids.length + 9) / 10 ∧
    (∀ p ∈ ps, p.embeds.length ≤ 10) ∧
    (∃ es, buildEmbeds vids k = Except.ok es ∧
       (ps.map (fun p => p.embeds)).flatten = es) ∧
    (∀ i, (hi : i < ps.length) →
       ps[i].embeds.length = min 10 (vids.length - 10 * i)) ∧
    (∀ p ∈ ps.take 1, p.content = some (sendContentLine k)) ∧
    (∀ p ∈ ps.tail, p.content = none) := by
  have hB : ∃ es, buildEmbeds vids k = Except.ok es := by
    unfold send_detailed_to_discord at h
    cases hb : buildEmbeds vids k with
    | error e => rw [hb] at h; cases h
    | ok es => exact ⟨es, rfl⟩
  obtain ⟨es, hB⟩ := hB
  have hlen := buildEmbeds_length vids k es hB
  have hmap := send_payload_embeds vids k ps es hB h
  have hplen : ps.length = (chunks10 es).length := by
    rw [← hmap, List.length_map]
  refine ⟨?_, ?_, ⟨es, hB, ?_⟩, ?_, ?_, ?_⟩
  · rw [hplen, chunks10_length, hlen]
  · intro p hp
    have : p.embeds ∈ chunks10 es := by
      rw [← hmap]; exact List.mem_map_of_mem _ hp
    exact chunks10_mem_le es _ this
  · rw [hmap, chunks10_flatten]
  · intro i hi
    have hi' : i < (chunks10 es).length := by rw [← hplen]; exact hi
    have h1 : ps[i]?.map (fun p => p.embeds) = some ((es.drop (10 * i)).take 10) := by
      rw [← List.getElem?_map, hmap, chunks10_getElem? es i hi']
    rw [List.getElem?_eq_getElem hi] at h1
    simp only [Option.map_some'] at h1
    rw [Option.some.injEq] at h1
    rw [h1]
    simp only [List.length_take, List.length_drop]
    omega
  · intro p hp
    unfold send_detailed_to_discord at h
    rw [hB] at h
    dsimp only at h
    cases hc : chunks10 es with
    | nil => rw [hc] at h; cases h; simp at hp
    | cons c cs =>
        rw [hc] at h; cases h
        simp only [List.take_cons, List.take_nil] at hp
        rcases List.mem_cons.mp hp with h' | h'
        · subst h'; rfl
        · simp at h'
  · intro p hp
    unfold send_detailed_to_discord at h
    rw [hB] at h
    dsimp only at h
    cases hc : chunks10 es with
    | nil => rw [hc] at h; cases h; simp at hp
    | cons c cs =>
        rw [hc] at h; cases h
        simp only [List.tail_cons] at hp
        obtain ⟨b, _, hbe⟩ := List.mem_map.mp hp
        rw [← hbe]

theorem preClampTotal_hugeVideo :
    preClampTotal hugeVideo (List.replicate 1100 'k') = 6183 := by
  have hd : embedDesc0 hugeVideo = trim_text (some (List.replicate 4200 'd')) 4096 := rfl
  have hdl : ((trim_text (some (List.replicate 4200 'd')) 4096).length : Int) = 4096 :=
    length_trim_text_eq _ _ (by norm_num) (by rw [List.length_replicate]; norm_num)
  have h1 : ((trim_text (some (List.replicate 1100 'k')) 1024).length : Int) = 1024 :=
    length_trim_text_eq _ _ (by norm_num) (by rw [List.length_replicate]; norm_num)
  have hw : (renderDim hugeVideo.width).length = 601 := by decide
  have hh : (renderDim hugeVideo.height).length = 601 := by decide
  have h2 : ((trim_text
      (some (renderDim hugeVideo.width ++ ['x'] ++ renderDim hugeVideo.height))
      1024).length : Int) = 1024 := by
    refine length_trim_text_eq _ _ (by norm_num) ?_
    simp only [List.length_append, hw, hh]
    norm_num
  have h3 : ((trim_text (some (format_duration hugeVideo.duration)) 1024).length : Int) = 3 := by
    decide
  have ht : (embedTitle hugeVideo).length = 8 := by decide
  unfold preClampTotal
  rw [hd]
  simp only [embedFields, List.map_cons, List.map_nil, List.sum_cons, List.sum_nil]
  have hn1 : (pys "Matched On").length = 10 := rfl
  have hn2 : (pys "Resolution").length = 10 := rfl
  have hn3 : (pys "Duration").length = 8 := rfl
  simp only [hn1, hn2, hn3]
  omega

/-- Witness for C6 at a concrete oversize item: the measured total is 6183 >
6000, and the emitted embed's total length is clamped to exactly 6000. -/
theorem C6_witness :
    6000 < preClampTotal hugeVideo (List.replicate 1100 'k') ∧
    ∃ emb, build_embed hugeVideo (List.replicate 1100 'k') = Except.ok emb ∧
      embedTotalLength emb = 6000 := by
  have hT : thumbnailUrl hugeVideo = Except.ok [] := rfl
  have hE : ∃ emb, build_embed hugeVideo (List.replicate 1100 'k') = Except.ok emb := by
    unfold build_embed
    rw [hT]
    exact ⟨_, rfl⟩
  obtain ⟨emb, hE⟩ := hE
  refine ⟨by rw [preClampTotal_hugeVideo]; norm_num, emb, hE, ?_⟩
  exact ((C6_size_ceiling _ _ _ hE).2 (by rw [preClampTotal_hugeVideo]; norm_num)).2

/-- Witness for C8 at a concrete 23-item group: exactly 3 calls of sizes
10, 10 and 3, only the first carrying the content line. -/
theorem C8_witness :
    ∃ ps, send_detailed_to_discord (List.replicate 23 plainVideo) (pys "cats") =
        Except.ok ps ∧
      ps.length = 3 ∧
      (∀ p ∈ ps, p.embeds.length ≤ 10) ∧
      (∀ i, (hi : i < ps.length) → ps[i].embeds.length = min 10 (23 - 10 * i)) ∧
      (∀ p ∈ ps.take 1, p.content = some (sendContentLine (pys "cats"))) ∧
      (∀ p ∈ ps.tail, p.content = none) := by
  cases hE : send_detailed_to_discord (List.replicate 23 plainVideo) (pys "cats") with
  | error e =>
      have hok :
          exceptIsOk (send_detailed_to_discord (List.replicate 23 plainVideo) (pys "cats")) =
            true := by decide
      rw [hE] at hok
      cases hok
  | ok ps =>
      obtain ⟨h1, h2, _, h4, h5, h6⟩ := C8_batching _ _ _ hE
      exact ⟨ps, rfl, by simpa using h1, h2, by simpa using h4, h5, h6⟩

/-! ## C4 and C5: the retry loop's failure handling -/

/-- Counterexample for C4: a webhook endpoint that answers 429 with an
explicit retry-delay in the body.  The executor never reads it: every
attempt is followed by the fixed generic sleep, the attempt counts against
the 5-attempt budget, and the call ends in terminal failure. -/
theorem C4_counterexample :
    request_with_retries (pys "post")
        (fun _ => NetOutcome.response 429 true (some 30)) =
      ⟨none, 5, (List.replicate 5 [ExecEv.issueCall, ExecEv.retrySleep]).flatten⟩ := by
  rfl

/-- C4 amended: a 429 from the delivery endpoint is not distinguished: it is
raised by `raise_for_status`, caught as a generic `RequestException`, slept
with the fixed interval, and counted against the 5-attempt budget; the
server-suggested delay in the body is never read (the trace is independent
of it and of the decode flag). -/
theorem C4_amended_429_generic (dOk : Nat → Bool) (rb : Nat → Option Int) :
    request_with_retries (pys "post")
        (fun i => NetOutcome.response 429 (dOk i) (rb i)) =
      ⟨none, 5, (List.replicate 5 [ExecEv.issueCall, ExecEv.retrySleep]).flatten⟩ := by
  rfl

/-- C5: evaluation of the executor at the failing input.  An unsupported
verb raises `ValueError` inside the `try`, so the generic `except
ValueError` handler catches it: the call is retried through the whole
5-attempt budget with a sleep after every attempt (never issuing an HTTP
request), exactly like transport errors and decode errors, instead of
failing immediately. -/
theorem C5_unsupported_verb_retried (env : Nat → NetOutcome) (rb : Nat → Option Int) :
    request_with_retries (pys "put") env =
      ⟨none, 5, List.replicate 5 ExecEv.retrySleep⟩ ∧
    request_with_retries (pys "get") (fun _ => NetOutcome.raiseTransport) =
      ⟨none, 5, (List.replicate 5 [ExecEv.issueCall, ExecEv.retrySleep]).flatten⟩ ∧
    request_with_retries (pys "get") (fun i => NetOutcome.response 200 false (rb i)) =
      ⟨none, 5,
        (List.replicate 5
          [ExecEv.issueCall, ExecEv.rateLimitHandled, ExecEv.retrySleep]).flatten⟩ :=
  ⟨rfl, rfl, rfl⟩

/-! ## C9: which entries invoke the executor -/

theorem pollFold_calls (known : List PyStr) (fetch : PyStr → Option VResp)
    (mk : PyStr → PyStr) :
    ∀ (entries : List PyStr) (acc : List NvpEntry × List PyStr),
      (entries.foldl (pollStep known fetch mk) acc).2 =
        acc.2 ++ entries.filter (fun q => q ≠ []) := by
  intro entries
  induction entries with
  | nil => intro acc; simp
  | cons q qs ih =>
      intro acc
      rw [List.foldl_cons, ih]
      by_cases hq : q = []
      · subst hq
        simp [pollStep]
      · have h2 : (pollStep known fetch mk acc q).2 = acc.2 ++ [q] := by
          unfold pollStep
          rw [if_neg hq]
          cases fetch q <;> rfl
        rw [h2, List.filter_cons]
        simp [hq]

theorem pollPhase_calls (known : List PyStr) (fetch : PyStr → Option VResp)
    (mk : PyStr → PyStr) (entries : List PyStr) (nvp0 : List NvpEntry) :
    (pollPhase known fetch mk entries nvp0).2 = entries.filter (fun q => q ≠ []) := by
  unfold pollPhase
  rw [pollFold_calls]
  simp

theorem mainRun_searchCalls (f : PyStr) (s u : PyStr → Option VResp)
    (qs us : List PyStr) :
    (mainRun f s u qs us).searchCalls =
      (pollPhase (read_known_links f) s (fun q => q) qs []).2 := by
  unfold mainRun
  dsimp only
  split
  · rfl
  · split <;> rfl

theorem mainRun_uploadCalls (f : PyStr) (s u : PyStr → Option VResp)
    (qs us : List PyStr) :
    (mainRun f s u qs us).uploadCalls =
      (pollPhase (read_known_links f) u (fun uid => pys "User: " ++ uid) us
        (pollPhase (read_known_links f) s (fun q => q) qs []).1).2 := by
  unfold mainRun
  dsimp only
  split
  · rfl
  · split <;> rfl

/-- C9 amended: the poll loops skip exactly the *empty-string* entries
without invoking the executor; every other entry — including whitespace-only
entries, which are truthy in Python — does invoke it.  The executor is
invoked precisely for the non-empty entries, in order. -/
theorem C9_blank_entries (f : PyStr) (s u : PyStr → Option VResp)
    (qs us : List PyStr) :
    (mainRun f s u qs us).searchCalls = qs.filter (fun q => q ≠ []) ∧
    (mainRun f s u qs us).uploadCalls = us.filter (fun q => q ≠ []) := by
  rw [mainRun_searchCalls, mainRun_uploadCalls, pollPhase_calls, pollPhase_calls]
  exact ⟨rfl, rfl⟩

/-- Counterexample for C9: a run configured with the whitespace-only query
`" "` and the whitespace-only user id `" \t"` invokes the executor for both
(the claim says such entries are skipped without any call). -/
theorem C9_counterexample :
    (mainRun [] (fun _ => none) (fun _ => none) [[' ']] [[' ', '\t']]).searchCalls =
      [[' ']] ∧
    (mainRun [] (fun _ => none) (fun _ => none) [[' ']] [[' ', '\t']]).uploadCalls =
      [[' ', '\t']] := by
  exact ⟨by decide, by decide⟩

/-! ## C1: an exception after filtering skips the ledger commit -/

/-- C1 amended: an unhandled exception raised while formatting/delivering
(after the filtering step computed `new_videos_to_post`) is caught by the
top-level handler — the run ends without crashing, embedded as `mainRun`
returning normally with the exception recorded — but the append of the
newly-claimed identifiers is *not* performed: the ledger file is left
exactly as it was read and nothing is handed to `write_known_links`. -/
theorem C1_exception_skips_commit (f : PyStr) (s u : PyStr → Option VResp)
    (qs us : List PyStr) (e : PyExc)
    (h : (mainRun f s u qs us).caught = some e) :
    (mainRun f s u qs us).file = f ∧ (mainRun f s u qs us).committed = [] := by
  revert h
  unfold mainRun
  dsimp only
  split
  · intro h; exact Option.noConfusion h
  · split
    · intro h; exact Option.noConfusion h
    · intro h; exact ⟨rfl, rfl⟩

/-- Witness for C1's amended theorem at a concrete crashing run. -/
theorem C1_witness :
    (mainRun [] (fun q => if q = pys "w" then some ⟨[crashVideo]⟩ else none)
        (fun _ => none) [pys "w"] []).file = [] ∧
    (mainRun [] (fun q => if q = pys "w" then some ⟨[crashVideo]⟩ else none)
        (fun _ => none) [pys "w"] []).committed = [] :=
  C1_exception_skips_commit [] _ _ [pys "w"] [] PyExc.indexError (by decide)

/-- Counterexample for C1 as stated: a run whose single new item raises
`IndexError` during formatting.  Filtering completed (the item was claimed
into `new_videos_to_post`), the exception was caught at the top level, yet
the ledger file is unchanged and nothing was appended — the claimed commit
does not happen. -/
theorem C1_counterexample :
    (mainRun [] (fun q => if q = pys "q" then some ⟨[crashVideo]⟩ else none)
        (fun _ => none) [pys "q"] []).caught = some PyExc.indexError ∧
    (mainRun [] (fun q => if q = pys "q" then some ⟨[crashVideo]⟩ else none)
        (fun _ => none) [pys "q"] []).nvp =
      [(pys "https://vimeo.com/9", crashVideo, pys "q")] ∧
    (mainRun [] (fun q => if q = pys "q" then some ⟨[crashVideo]⟩ else none)
        (fun _ => none) [pys "q"] []).file = [] ∧
    (mainRun [] (fun q => if q = pys "q" then some ⟨[crashVideo]⟩ else none)
        (fun _ => none) [pys "q"] []).committed = [] := by
  exact ⟨by decide, by decide, by decide, by decide⟩

/-! ## C10: timestamp clock-face preservation and instant shift -/

theorem isDig_ne_Z {c : Char} (h : isDig c = true) : c ≠ 'Z' := by
  intro he
  subst he
  exact absurd h (by decide)

theorem rstripZ_eq_self {s : PyStr} {c : Char} (hl : s.getLast? = some c)
    (hc : c ≠ 'Z') : rstripZ s = s := by
  unfold rstripZ
  cases hr : s.reverse with
  | nil =>
      have hs : s = [] := by
        have := congrArg List.reverse hr
        simpa using this
      rw [hs] at hl
      cases hl
  | cons a t =>
      have ha : a = c := by
        have hh := List.head?_reverse s
        rw [hr] at hh
        rw [hl] at hh
        exact (Option.some.injEq _ _).mp hh
      rw [List.dropWhile_cons]
      rw [if_neg (by simp [ha, hc])]
      rw [← hr, List.reverse_reverse]

theorem rstripZ_append_Z (s : PyStr) : rstripZ (s ++ ['Z']) = rstripZ s := by
  unfold rstripZ
  rw [List.reverse_append]
  simp [List.dropWhile_cons]

theorem parseBaseDT_inv (s : PyStr) (dt : PyDateTime) (h : parseBaseDT s = some dt) :
    dt.tzOffsetMinutes = none ∧ s.length = 19 ∧
      ∃ c, s.getLast? = some c ∧ isDig c = true := by
  unfold parseBaseDT at h
  split at h
  next y1 y2 y3 y4 m1 m2 d1 d2c h1 h2 n1 n2 s1 s2 =>
    split at h
    next hdigs =>
      dsimp only at h
      split at h
      next hranges =>
        cases h
        exact ⟨rfl, rfl, s2, rfl, hdigs.2.2.2.2.2.2.2.2.2.2.2.2.2⟩
      next => cases h
    next => cases h
  next => cases h

theorem parseOffsetMin_inv (r : PyStr) (o : Int) (h : parseOffsetMin r = some o) :
    r ≠ [] ∧ ∃ c, r.getLast? = some c ∧ isDig c = true := by
  unfold parseOffsetMin at h
  split at h
  next sg a b c d =>
    split at h
    next hc =>
      dsimp only at h
      split at h
      next =>
        exact ⟨by simp, d, rfl, hc.2.2.2.2⟩
      next => cases h
    next => cases h
  next => cases h

theorem pyFromIso_inv (s : PyStr) (dt : PyDateTime) (h : pyFromIso s = some dt) :
    s ≠ [] ∧ rstripZ s = s := by
  unfold pyFromIso at h
  cases hbase : parseBaseDT (s.take 19) with
  | none =>
      rw [hbase] at h
      dsimp only at h
      cases h
  | some base =>
      rw [hbase] at h
      cases hdrop : s.drop 19 with
      | nil =>
          rw [hdrop] at h
          obtain ⟨_, hlen, c, hlast, hdig⟩ := parseBaseDT_inv _ _ hbase
          have hle : s.length ≤ 19 := by
            have h19 := congrArg List.length hdrop
            simp only [List.length_drop, List.length_nil] at h19
            omega
          have hself : s.take 19 = s := List.take_of_length_le hle
          rw [hself] at hlast hlen
          have hne : s ≠ [] := by
            intro he
            rw [he] at hlen
            cases hlen
          exact ⟨hne, rstripZ_eq_self hlast (isDig_ne_Z hdig)⟩
      | cons r0 rt =>
          rw [hdrop] at h
          dsimp only at h
          cases hoff : parseOffsetMin (r0 :: rt) with
          | none => rw [hoff] at h; cases h
          | some o =>
              obtain ⟨hrne, c, hlast, hdig⟩ := parseOffsetMin_inv _ _ hoff
              have hsplit : s.take 19 ++ (r0 :: rt) = s := by
                rw [← hdrop]
                exact List.take_append_drop 19 s
              have hlast' : s.getLast? = some c := by
                rw [← hsplit, List.getLast?_append_of_ne_nil _ (by simp)]
                exact hlast
              have hne : s ≠ [] := by
                intro he
                rw [he] at hdrop
                simp at hdrop
              exact ⟨hne, rstripZ_eq_self hlast' (isDig_ne_Z hdig)⟩

theorem formatTimestamp_parses (s : PyStr) (dt : PyDateTime)
    (h : pyFromIso s = some dt) :
    formatTimestamp (some s) = some (pyIsoformat (replaceTzUtc dt)) := by
  obtain ⟨hne, hstrip⟩ := pyFromIso_inv s dt h
  unfold formatTimestamp
  dsimp only
  rw [if_neg hne, hstrip, h]

theorem formatTimestamp_Z (s : PyStr) (dt : PyDateTime)
    (h : pyFromIso s = some dt) :
    formatTimestamp (some (s ++ ['Z'])) = some (pyIsoformat (replaceTzUtc dt)) := by
  obtain ⟨hne, hstrip⟩ := pyFromIso_inv s dt h
  unfold formatTimestamp
  dsimp only
  rw [if_neg (by simp), rstripZ_append_Z, hstrip, h]

/-- C10: for a `created_time` parsing with an explicit non-UTC offset, the
emitted timestamp is the same clock face re-stamped as UTC — so it denotes a
different instant than the upstream value (they differ by the offset); for a
`Z`-suffixed or offset-free `created_time` (only a trailing `Z` is stripped
before parsing), the naive clock face is stamped as UTC, which preserves the
denoted instant. -/
theorem C10_timestamp_utc_rewrite :
    (∀ s dt o, pyFromIso s = some dt → dt.tzOffsetMinutes = some o → o ≠ 0 →
       formatTimestamp (some s) = some (pyIsoformat (replaceTzUtc dt)) ∧
       clockFace (replaceTzUtc dt) = clockFace dt ∧
       instantSeconds (replaceTzUtc dt) ≠ instantSeconds dt) ∧
    (∀ s dt, pyFromIso s = some dt → dt.tzOffsetMinutes = none →
       formatTimestamp (some (s ++ ['Z'])) = some (pyIsoformat (replaceTzUtc dt)) ∧
       formatTimestamp (some s) = some (pyIsoformat (replaceTzUtc dt)) ∧
       instantSeconds (replaceTzUtc dt) = instantSeconds dt) := by
  constructor
  · intro s dt o hp ho hne
    refine ⟨formatTimestamp_parses s dt hp, rfl, ?_⟩
    obtain ⟨y, mo, d, hh, mi, ss, tz⟩ := dt
    simp only at ho
    subst ho
    simp only [instantSeconds, replaceTzUtc, Option.getD_some]
    omega
  · intro s dt hp ho
    refine ⟨formatTimestamp_Z s dt hp, formatTimestamp_parses s dt hp, ?_⟩
    obtain ⟨y, mo, d, hh, mi, ss, tz⟩ := dt
    simp only at ho
    subst ho
    simp only [instantSeconds, replaceTzUtc, Option.getD_some, Option.getD_none]

/-- Witness for C10 at `2024-01-01T12:00:00+05:00` (offset case) and
`2024-01-01T12:00:00Z` (Z case). -/
theorem C10_witness :
    formatTimestamp (some (pys "2024-01-01T12:00:00+05:00")) =
      some (pys "2024-01-01T12:00:00+00:00") ∧
    instantSeconds ⟨2024, 1, 1, 12, 0, 0, some 0⟩ ≠
      instantSeconds ⟨2024, 1, 1, 12, 0, 0, some 300⟩ ∧
    formatTimestamp (some (pys "2024-01-01T12:00:00Z")) =
      some (pys "2024-01-01T12:00:00+00:00") := by
  have h1 := C10_timestamp_utc_rewrite.1 (pys "2024-01-01T12:00:00+05:00")
    ⟨2024, 1, 1, 12, 0, 0, some 300⟩ 300 (by rfl) rfl (by norm_num)
  have h2 := C10_timestamp_utc_rewrite.2 (pys "2024-01-01T12:00:00")
    ⟨2024, 1, 1, 12, 0, 0, none⟩ (by rfl) rfl
  refine ⟨h1.1.trans (by rfl), h1.2.2, h2.1.trans (by rfl)⟩

/-! ## C2: first-claim dedup across queries and users -/

theorem collectStep_append (known : List PyStr) (kw : PyStr) (nvp : List NvpEntry)
    (item : Video) :
    ∃ add, collectStep known kw nvp item = nvp ++ add := by
  unfold collectStep
  cases item.link with
  | none => exact ⟨[], (List.append_nil nvp).symm⟩
  | some l =>
      dsimp only
      by_cases hc : l ≠ [] ∧ l ∉ known ∧ ¬ nvp.any (fun e => e.1 = l)
      · refine ⟨[(l, item, kw)], ?_⟩
        rw [if_pos hc]
      · refine ⟨[], ?_⟩
        rw [if_neg hc, List.append_nil]

theorem collectFromResponse_append (known : List PyStr) (kw : PyStr)
    (items : List Video) :
    ∀ nvp, ∃ add, collectFromResponse known kw items nvp = nvp ++ add := by
  induction items with
  | nil =>
      intro nvp
      exact ⟨[], by unfold collectFromResponse; rw [List.foldl_nil, List.append_nil]⟩
  | cons item rest ih =>
      intro nvp
      obtain ⟨a1, h1⟩ := collectStep_append known kw nvp item
      obtain ⟨a2, h2⟩ := ih (collectStep known kw nvp item)
      refine ⟨a1 ++ a2, ?_⟩
      unfold collectFromResponse at h2 ⊢
      rw [List.foldl_cons, h2, h1, List.append_assoc]

theorem pollStep_append (known : List PyStr) (fetch : PyStr → Option VResp)
    (mk : PyStr → PyStr) (acc : List NvpEntry × List PyStr) (q : PyStr) :
    ∃ add, (pollStep known fetch mk acc q).1 = acc.1 ++ add := by
  unfold pollStep
  split
  · exact ⟨[], (List.append_nil acc.1).symm⟩
  · cases hf : fetch q with
    | none => exact ⟨[], (List.append_nil acc.1).symm⟩
    | some resp =>
        obtain ⟨a, ha⟩ := collectFromResponse_append known (mk q) resp.data acc.1
        exact ⟨a, ha⟩

theorem pollFold_append (known : List PyStr) (fetch : PyStr → Option VResp)
    (mk : PyStr → PyStr) :
    ∀ (entries : List PyStr) (acc : List NvpEntry × List PyStr),
      ∃ add, (entries.foldl (pollStep known fetch mk) acc).1 = acc.1 ++ add := by
  intro entries
  induction entries with
  | nil => intro acc; exact ⟨[], (List.append_nil acc.1).symm⟩
  | cons q qs ih =>
      intro acc
      rw [List.foldl_cons]
      obtain ⟨a2, h2⟩ := ih (pollStep known fetch mk acc q)
      obtain ⟨a1, h1⟩ := pollStep_append known fetch mk acc q
      exact ⟨a1 ++ a2, by rw [h2, h1, List.append_assoc]⟩

theorem find?_append_some {α : Type} (l1 l2 : List α) (p : α → Bool) (e : α)
    (h : l1.find? p = some e) : (l1 ++ l2).find? p = some e := by
  rw [List.find?_append, h]
  rfl

theorem any_append_left {α : Type} (l1 l2 : List α) (p : α → Bool)
    (h : l1.any p = true) : (l1 ++ l2).any p = true := by
  rw [List.any_append, h]
  rfl

theorem find?_eq_none_of_any_false {α : Type} (l : List α) (p : α → Bool)
    (h : l.any p = false) : l.find? p = none := by
  rw [List.find?_eq_none]
  intro x hx hpx
  have := List.any_eq_true.mpr ⟨x, hx, hpx⟩
  rw [h] at this
  cases this

theorem collectFromResponse_cons (known : List PyStr) (kw : PyStr) (item : Video)
    (rest : List Video) (nvp : List NvpEntry) :
    collectFromResponse known kw (item :: rest) nvp =
      collectFromResponse known kw rest (collectStep known kw nvp item) := by
  unfold collectFromResponse
  rw [List.foldl_cons]

/-- A claim step for an item whose link is not `some l` never adds key `l`. -/
theorem collectStep_any_false (known : List PyStr) (kw : PyStr) (nvp : List NvpEntry)
    (item : Video) (l : PyStr) (hitem : item.link ≠ some l)
    (hno : nvp.any (fun e => e.1 = l) = false) :
    (collectStep known kw nvp item).any (fun e => e.1 = l) = false := by
  unfold collectStep
  cases hli : item.link with
  | none => exact hno
  | some l' =>
      dsimp only
      split
      · rw [List.any_append, hno]
        have hne : l' ≠ l := by
          intro he
          exact hitem (by rw [hli, he])
        simp [hne]
      · exact hno

/-- After processing one response, the first-claim dict maps `l` (truthy, not
in the ledger, not yet claimed) to exactly the first item of the response
whose link is `l`, tagged with this response's keyword; and `l` is claimed
iff some item of the response carries it. -/
theorem collect_find (known : List PyStr) (kw l : PyStr) (hl : l ≠ []) (hk : l ∉ known) :
    ∀ (items : List Video) (nvp : List NvpEntry),
      nvp.any (fun e => e.1 = l) = false →
      ((collectFromResponse known kw items nvp).find? (fun e => e.1 = l) =
         (items.find? (fun v => v.link = some l)).map (fun v => (l, v, kw)) ∧
       (collectFromResponse known kw items nvp).any (fun e => e.1 = l) =
         items.any (fun v => v.link = some l)) := by
  intro items
  induction items with
  | nil =>
      intro nvp hno
      unfold collectFromResponse
      rw [List.foldl_nil]
      refine ⟨?_, ?_⟩
      · rw [find?_eq_none_of_any_false _ _ hno]
        rfl
      · rw [hno]
        rfl
  | cons item rest ih =>
      intro nvp hno
      rw [collectFromResponse_cons]
      cases hli : item.link with
      | none =>
          have hstep : collectStep known kw nvp item = nvp := by
            unfold collectStep
            rw [hli]
          rw [hstep]
          have hpv : ¬ (fun v => decide (v.link = some l)) item = true := by
            simp [hli]
          obtain ⟨ihf, iha⟩ := ih nvp hno
          refine ⟨?_, ?_⟩
          · rw [ihf, show (item :: rest).find? (fun v => v.link = some l) =
                rest.find? (fun v => v.link = some l) from List.find?_cons_of_neg _ hpv]
          · rw [iha, List.any_cons]
            simp [hli]
      | some l' =>
          by_cases heq : l' = l
          · subst heq
            have hstep : collectStep known kw nvp item = nvp ++ [(l', item, kw)] := by
              unfold collectStep
              rw [hli]
              dsimp only
              rw [if_pos ⟨hl, hk, by rw [hno]; simp⟩]
            rw [hstep]
            obtain ⟨add, hadd⟩ := collectFromResponse_append known kw rest (nvp ++ [(l', item, kw)])
            rw [hadd]
            have hone : (nvp ++ [(l', item, kw)]).find? (fun e => e.1 = l') = some (l', item, kw) := by
              rw [List.find?_append, find?_eq_none_of_any_false _ _ hno]
              simp
            refine ⟨?_, ?_⟩
            · rw [find?_append_some _ _ _ _ hone]
              have hfv : (item :: rest).find? (fun v => v.link = some l') = some item := by
                rw [List.find?_cons_of_pos]
                simp [hli]
              rw [hfv]
              rfl
            · have h1 : ((nvp ++ [(l', item, kw)]) ++ add).any (fun e => e.1 = l') = true := by
                apply any_append_left
                rw [List.any_append, hno]
                simp
              rw [h1, List.any_cons]
              simp [hli]
          · have hstepany : (collectStep known kw nvp item).any (fun e => e.1 = l) = false := by
              apply collectStep_any_false known kw nvp item l _ hno
              rw [hli]
              intro hcon
              exact heq (by injection hcon)
            obtain ⟨ihf, iha⟩ := ih (collectStep known kw nvp item) hstepany
            have hpv : ¬ (fun v => decide (v.link = some l)) item = true := by
              simp [hli]
              exact heq
            refine ⟨?_, ?_⟩
            · rw [ihf, show (item :: rest).find? (fun v => v.link = some l) =
                  rest.find? (fun v => v.link = some l) from List.find?_cons_of_neg _ hpv]
            · rw [iha, List.any_cons]
              simp [hli, heq]

theorem find?_pairs (kw : PyStr) (data : List Video) (l : PyStr) :
    (data.map (fun v => (kw, v))).find? (fun p => p.2.link = some l) =
      (data.find? (fun v => v.link = some l)).map (fun v => (kw, v)) := by
  rw [List.find?_map]
  rfl

theorem any_pairs (kw : PyStr) (data : List Video) (l : PyStr) :
    (data.map (fun v => (kw, v))).any (fun p => p.2.link = some l) =
      data.any (fun v => v.link = some l) := by
  induction data with
  | nil => rfl
  | cons v vs ih => simp only [List.map_cons, List.any_cons, ih]

/-- After one poll loop, the first-claim dict maps `l` (truthy, not in the
ledger, unclaimed at loop entry) to the first discovery of this loop carrying
link `l`, and `l` is claimed iff this loop discovers it. -/
theorem pollFold_find (known : List PyStr) (fetch : PyStr → Option VResp)
    (mk : PyStr → PyStr) (l : PyStr) (hl : l ≠ []) (hk : l ∉ known) :
    ∀ (entries : List PyStr) (acc : List NvpEntry × List PyStr),
      acc.1.any (fun e => e.1 = l) = false →
      ((entries.foldl (pollStep known fetch mk) acc).1.find? (fun e => e.1 = l) =
         ((phaseDiscoveries fetch mk entries).find? (fun p => p.2.link = some l)).map
           (fun p => (l, p.2, p.1)) ∧
       (entries.foldl (pollStep known fetch mk) acc).1.any (fun e => e.1 = l) =
         (phaseDiscoveries fetch mk entries).any (fun p => p.2.link = some l)) := by
  intro entries
  induction entries with
  | nil =>
      intro acc hno
      rw [List.foldl_nil]
      unfold phaseDiscoveries
      simp only [List.filter_nil, List.map_nil, List.flatten_nil, List.find?_nil,
        List.any_nil]
      exact ⟨by rw [find?_eq_none_of_any_false _ _ hno]; rfl, by rw [hno]⟩
  | cons q qs ih =>
      intro acc hno
      rw [List.foldl_cons]
      by_cases hq : q = []
      · have hstep : pollStep known fetch mk acc q = acc := by
          unfold pollStep
          rw [if_pos hq]
        have hpd : phaseDiscoveries fetch mk (q :: qs) = phaseDiscoveries fetch mk qs := by
          unfold phaseDiscoveries
          rw [List.filter_cons]
          simp [hq]
        rw [hstep, hpd]
        exact ih acc hno
      · have hfilter : (q :: qs).filter (fun x => x ≠ []) =
            q :: qs.filter (fun x => x ≠ []) := by
          rw [List.filter_cons]
          simp [hq]
        cases hf : fetch q with
        | none =>
            have hstep : pollStep known fetch mk acc q = (acc.1, acc.2 ++ [q]) := by
              unfold pollStep
              rw [if_neg hq, hf]
            have hpd : phaseDiscoveries fetch mk (q :: qs) =
                phaseDiscoveries fetch mk qs := by
              unfold phaseDiscoveries
              rw [hfilter, List.map_cons, List.flatten_cons, hf]
              rfl
            rw [hstep, hpd]
            exact ih (acc.1, acc.2 ++ [q]) hno
        | some resp =>
            have hstep : pollStep known fetch mk acc q =
                (collectFromResponse known (mk q) resp.data acc.1, acc.2 ++ [q]) := by
              unfold pollStep
              rw [if_neg hq, hf]
            have hpd : phaseDiscoveries fetch mk (q :: qs) =
                resp.data.map (fun v => (mk q, v)) ++ phaseDiscoveries fetch mk qs := by
              unfold phaseDiscoveries
              rw [hfilter, List.map_cons, List.flatten_cons, hf]
            rw [hstep, hpd]
            obtain ⟨hcf, hca⟩ := collect_find known (mk q) l hl hk resp.data acc.1 hno
            by_cases hfound : resp.data.any (fun v => v.link = some l) = true
            · obtain ⟨add, hadd⟩ := pollFold_append known fetch mk qs
                (collectFromResponse known (mk q) resp.data acc.1, acc.2 ++ [q])
              have hsome : ∃ v0, resp.data.find? (fun v => v.link = some l) = some v0 := by
                cases hfind : resp.data.find? (fun v => v.link = some l) with
                | none =>
                    exfalso
                    rw [List.find?_eq_none] at hfind
                    obtain ⟨x, hx, hpx⟩ := List.any_eq_true.mp hfound
                    exact hfind x hx hpx
                | some v0 => exact ⟨v0, rfl⟩
              obtain ⟨v0, hv0⟩ := hsome
              have hLHS : (collectFromResponse known (mk q) resp.data acc.1).find?
                  (fun e => e.1 = l) = some (l, v0, mk q) := by
                rw [hcf, hv0]
                rfl
              have hATrue : (collectFromResponse known (mk q) resp.data acc.1).any
                  (fun e => e.1 = l) = true := by
                rw [hca, hfound]
              refine ⟨?_, ?_⟩
              · rw [hadd, find?_append_some _ _ _ _ hLHS]
                rw [List.find?_append, find?_pairs, hv0]
                rfl
              · rw [hadd, any_append_left _ _ _ hATrue]
                rw [List.any_append, any_pairs, hfound]
                rfl
            · have hnfound : resp.data.any (fun v => v.link = some l) = false :=
                Bool.not_eq_true _ ▸ eq_false_of_ne_true hfound
              have hno' : (collectFromResponse known (mk q) resp.data acc.1).any
                  (fun e => e.1 = l) = false := by
                rw [hca, hnfound]
              obtain ⟨ihf, iha⟩ := ih
                (collectFromResponse known (mk q) resp.data acc.1, acc.2 ++ [q]) hno'
              have hpn : resp.data.find? (fun v => v.link = some l) = none :=
                find?_eq_none_of_any_false _ _ hnfound
              refine ⟨?_, ?_⟩
              · rw [ihf, List.find?_append, find?_pairs, hpn]
                rfl
              · rw [iha, List.any_append, any_pairs, hnfound]
                rfl

/-- The run's `new_videos_to_post` maps a truthy, not-yet-known link `l` to
its first discovery across both poll loops in configured processing order,
and claims `l` iff some discovery carries it. -/
theorem runNvp_find (f : PyStr) (s u : PyStr → Option VResp) (qs us : List PyStr)
    (l : PyStr) (hl : l ≠ []) (hk : l ∉ read_known_links f) :
    (runNvp f s u qs us).find? (fun e => e.1 = l) =
      ((discoveries s u qs us).find? (fun p => p.2.link = some l)).map
        (fun p => (l, p.2, p.1)) ∧
    (runNvp f s u qs us).any (fun e => e.1 = l) =
      (discoveries s u qs us).any (fun p => p.2.link = some l) := by
  obtain ⟨h1f, h1a⟩ :=
    pollFold_find (read_known_links f) s (fun q => q) l hl hk qs ([], []) rfl
  have key : ∀ (nvp1 : List NvpEntry) (c1 : List PyStr),
      nvp1.find? (fun e => e.1 = l) =
        ((phaseDiscoveries s (fun q => q) qs).find? (fun p => p.2.link = some l)).map
          (fun p => (l, p.2, p.1)) →
      nvp1.any (fun e => e.1 = l) =
        (phaseDiscoveries s (fun q => q) qs).any (fun p => p.2.link = some l) →
      ((us.foldl (pollStep (read_known_links f) u (fun uid => pys "User: " ++ uid))
          (nvp1, c1)).1.find? (fun e => e.1 = l) =
        ((discoveries s u qs us).find? (fun p => p.2.link = some l)).map
          (fun p => (l, p.2, p.1)) ∧
       (us.foldl (pollStep (read_known_links f) u (fun uid => pys "User: " ++ uid))
          (nvp1, c1)).1.any (fun e => e.1 = l) =
        (discoveries s u qs us).any (fun p => p.2.link = some l)) := by
    intro nvp1 c1 hf1 ha1
    by_cases hfound :
        (phaseDiscoveries s (fun q => q) qs).any (fun p => p.2.link = some l) = true
    · have hsome : ∃ p0, (phaseDiscoveries s (fun q => q) qs).find?
          (fun p => p.2.link = some l) = some p0 := by
        cases hfind : (phaseDiscoveries s (fun q => q) qs).find?
            (fun p => p.2.link = some l) with
        | none =>
            exfalso
            rw [List.find?_eq_none] at hfind
            obtain ⟨x, hx, hpx⟩ := List.any_eq_true.mp hfound
            exact hfind x hx hpx
        | some p0 => exact ⟨p0, rfl⟩
      obtain ⟨p0, hp0⟩ := hsome
      have hf1' : nvp1.find? (fun e => e.1 = l) = some (l, p0.2, p0.1) := by
        rw [hf1, hp0]
        rfl
      obtain ⟨add, hadd⟩ := pollFold_append (read_known_links f) u
        (fun uid => pys "User: " ++ uid) us (nvp1, c1)
      constructor
      · rw [hadd, find?_append_some _ _ _ _ hf1']
        unfold discoveries
        rw [List.find?_append, hp0]
        rfl
      · rw [hadd, any_append_left _ _ _ (by rw [ha1, hfound])]
        unfold discoveries
        rw [List.any_append, hfound]
        rfl
    · have hnf : (phaseDiscoveries s (fun q => q) qs).any
          (fun p => p.2.link = some l) = false := eq_false_of_ne_true hfound
      have ha1' : nvp1.any (fun e => e.1 = l) = false := by rw [ha1, hnf]
      obtain ⟨h2f, h2a⟩ := pollFold_find (read_known_links f) u
        (fun uid => pys "User: " ++ uid) l hl hk us (nvp1, c1) ha1'
      constructor
      · rw [h2f]
        unfold discoveries
        rw [List.find?_append, find?_eq_none_of_any_false _ _ hnf]
        rfl
      · rw [h2a]
        unfold discoveries
        rw [List.any_append, hnf]
        rfl
  exact key (pollPhase (read_known_links f) s (fun q => q) qs []).1 [] h1f h1a

theorem any_key_false_iff (nvp : List NvpEntry) (l : PyStr)
    (h : nvp.any (fun e => e.1 = l) = false) : l ∉ nvp.map (fun e => e.1) := by
  intro hmem
  obtain ⟨e, he, hfst⟩ := List.mem_map.mp hmem
  have : nvp.any (fun e => e.1 = l) = true :=
    List.any_eq_true.mpr ⟨e, he, by simp [hfst]⟩
  rw [h] at this
  cases this

/-- Every claimed entry records an item whose link is exactly its key, the
key is truthy and not in the loaded ledger; and keys are pairwise distinct. -/
theorem collectStep_inv (known : List PyStr) (kw : PyStr) (nvp : List NvpEntry)
    (item : Video)
    (h : ∀ e ∈ nvp, e.2.1.link = some e.1 ∧ e.1 ≠ [] ∧ e.1 ∉ known)
    (hd : (nvp.map (fun e => e.1)).Nodup) :
    (∀ e ∈ collectStep known kw nvp item,
       e.2.1.link = some e.1 ∧ e.1 ≠ [] ∧ e.1 ∉ known) ∧
    ((collectStep known kw nvp item).map (fun e => e.1)).Nodup := by
  unfold collectStep
  cases hli : item.link with
  | none => exact ⟨h, hd⟩
  | some l =>
      dsimp only
      split
      next hc =>
        constructor
        · intro e he
          rcases List.mem_append.mp he with h1 | h1
          · exact h e h1
          · have : e = (l, item, kw) := by simpa using h1
            subst this
            exact ⟨hli, hc.1, hc.2.1⟩
        · rw [List.map_append]
          rw [List.nodup_append]
          refine ⟨hd, by simp, ?_⟩
          intro x hx
          have hany : nvp.any (fun e => e.1 = l) = false := by
            rcases Bool.eq_false_or_eq_true (nvp.any (fun e => e.1 = l)) with hb | hb
            · exact absurd hb hc.2.2
            · exact hb
          simp only [List.map_cons, List.map_nil, List.mem_singleton]
          intro hxl
          subst hxl
          exact any_key_false_iff nvp x hany hx
      next => exact ⟨h, hd⟩

theorem collectFromResponse_inv (known : List PyStr) (kw : PyStr)
    (items : List Video) :
    ∀ nvp,
      (∀ e ∈ nvp, e.2.1.link = some e.1 ∧ e.1 ≠ [] ∧ e.1 ∉ known) →
      (nvp.map (fun e => e.1)).Nodup →
      (∀ e ∈ collectFromResponse known kw items nvp,
         e.2.1.link = some e.1 ∧ e.1 ≠ [] ∧ e.1 ∉ known) ∧
      ((collectFromResponse known kw items nvp).map (fun e => e.1)).Nodup := by
  induction items with
  | nil =>
      intro nvp h hd
      unfold collectFromResponse
      rw [List.foldl_nil]
      exact ⟨h, hd⟩
  | cons item rest ih =>
      intro nvp h hd
      rw [collectFromResponse_cons]
      obtain ⟨h', hd'⟩ := collectStep_inv known kw nvp item h hd
      exact ih _ h' hd'

theorem pollFold_inv (known : List PyStr) (fetch : PyStr → Option VResp)
    (mk : PyStr → PyStr) :
    ∀ (entries : List PyStr) (acc : List NvpEntry × List PyStr),
      (∀ e ∈ acc.1, e.2.1.link = some e.1 ∧ e.1 ≠ [] ∧ e.1 ∉ known) →
      (acc.1.map (fun e => e.1)).Nodup →
      (∀ e ∈ (entries.foldl (pollStep known fetch mk) acc).1,
         e.2.1.link = some e.1 ∧ e.1 ≠ [] ∧ e.1 ∉ known) ∧
      ((entries.foldl (pollStep known fetch mk) acc).1.map (fun e => e.1)).Nodup := by
  intro entries
  induction entries with
  | nil => intro acc h hd; exact ⟨h, hd⟩
  | cons q qs ih =>
      intro acc h hd
      rw [List.foldl_cons]
      have hstep :
          (∀ e ∈ (pollStep known fetch mk acc q).1,
             e.2.1.link = some e.1 ∧ e.1 ≠ [] ∧ e.1 ∉ known) ∧
          ((pollStep known fetch mk acc q).1.map (fun e => e.1)).Nodup := by
        unfold pollStep
        split
        · exact ⟨h, hd⟩
        · cases hf : fetch q with
          | none => exact ⟨h, hd⟩
          | some resp => exact collectFromResponse_inv known (mk q) resp.data acc.1 h hd
      exact ih _ hstep.1 hstep.2

theorem runNvp_inv (f : PyStr) (s u : PyStr → Option VResp) (qs us : List PyStr) :
    (∀ e ∈ runNvp f s u qs us,
       e.2.1.link = some e.1 ∧ e.1 ≠ [] ∧ e.1 ∉ read_known_links f) ∧
    ((runNvp f s u qs us).map (fun e => e.1)).Nodup := by
  have h1 := pollFold_inv (read_known_links f) s (fun q => q) qs ([], [])
    (by intro e he; cases he) (by exact List.nodup_nil)
  exact pollFold_inv (read_known_links f) u (fun uid => pys "User: " ++ uid) us
    ((pollPhase (read_known_links f) s (fun q => q) qs []).1, []) h1.1 h1.2

theorem addToGroup_countP (q : Video → Bool) (k : PyStr) (v : Video) :
    ∀ groups : List (PyStr × List Video),
      ((addToGroup groups k v).map (fun g => g.2.countP q)).sum =
        (groups.map (fun g => g.2.countP q)).sum + (if q v then 1 else 0) := by
  intro groups
  induction groups with
  | nil =>
      unfold addToGroup
      simp [List.countP_cons]
  | cons g rest ih =>
      obtain ⟨k', vs⟩ := g
      unfold addToGroup
      split
      · simp only [List.map_cons, List.sum_cons, List.countP_append]
        have : List.countP q [v] = if q v then 1 else 0 := by
          simp [List.countP_cons]
        rw [this]
        omega
      · simp only [List.map_cons, List.sum_cons, ih]
        omega

theorem groupFold_countP (q : Video → Bool) :
    ∀ (nvp : List NvpEntry) (groups : List (PyStr × List Video)),
      ((nvp.foldl (fun g e => addToGroup g e.2.2 e.2.1) groups).map
          (fun g => g.2.countP q)).sum =
        (groups.map (fun g => g.2.countP q)).sum +
          nvp.countP (fun e => q e.2.1) := by
  intro nvp
  induction nvp with
  | nil => intro groups; simp
  | cons e rest ih =>
      intro groups
      rw [List.foldl_cons, ih, addToGroup_countP, List.countP_cons]
      split <;> omega

theorem groupByKeyword_countP (q : Video → Bool) (nvp : List NvpEntry) :
    ((groupByKeyword nvp).map (fun g => g.2.countP q)).sum =
      nvp.countP (fun e => q e.2.1) := by
  unfold groupByKeyword
  rw [groupFold_countP]
  simp

theorem addToGroup_inv (R : PyStr → Video → Prop) (k : PyStr) (v : Video)
    (hv : R k v) :
    ∀ groups : List (PyStr × List Video),
      (∀ g ∈ groups, ∀ w ∈ g.2, R g.1 w) →
      ∀ g ∈ addToGroup groups k v, ∀ w ∈ g.2, R g.1 w := by
  intro groups
  induction groups with
  | nil =>
      intro _ g hg w hw
      unfold addToGroup at hg
      have : g = (k, [v]) := by simpa using hg
      subst this
      have : w = v := by simpa using hw
      subst this
      exact hv
  | cons g0 rest ih =>
      obtain ⟨k', vs⟩ := g0
      intro hgs g hg w hw
      unfold addToGroup at hg
      by_cases hk : k' = k
      · rw [if_pos hk] at hg
        rcases List.mem_cons.mp hg with h1 | h1
        · subst h1
          rcases List.mem_append.mp hw with h2 | h2
          · exact hgs (k', vs) (List.mem_cons_self _ _) w h2
          · have : w = v := by simpa using h2
            subst this
            rw [hk]
            exact hv
        · exact hgs g (List.mem_cons_of_mem _ h1) w hw
      · rw [if_neg hk] at hg
        rcases List.mem_cons.mp hg with h1 | h1
        · subst h1
          exact hgs (k', vs) (List.mem_cons_self _ _) w hw
        · exact ih (fun g2 hg2 => hgs g2 (List.mem_cons_of_mem _ hg2)) g h1 w hw

theorem groupFold_inv (R : PyStr → Video → Prop) :
    ∀ (nvp : List NvpEntry) (groups : List (PyStr × List Video)),
      (∀ e ∈ nvp, R e.2.2 e.2.1) →
      (∀ g ∈ groups, ∀ w ∈ g.2, R g.1 w) →
      ∀ g ∈ nvp.foldl (fun g e => addToGroup g e.2.2 e.2.1) groups,
        ∀ w ∈ g.2, R g.1 w := by
  intro nvp
  induction nvp with
  | nil => intro groups _ hgs; exact hgs
  | cons e rest ih =>
      intro groups hnvp hgs
      rw [List.foldl_cons]
      exact ih _ (fun x hx => hnvp x (List.mem_cons_of_mem _ hx))
        (addToGroup_inv R e.2.2 e.2.1 (hnvp e (List.mem_cons_self _ _)) groups hgs)

theorem groupByKeyword_inv (R : PyStr → Video → Prop) (nvp : List NvpEntry)
    (hnvp : ∀ e ∈ nvp, R e.2.2 e.2.1) :
    ∀ g ∈ groupByKeyword nvp, ∀ w ∈ g.2, R g.1 w := by
  unfold groupByKeyword
  exact groupFold_inv R nvp [] hnvp (by intro g hg; cases hg)

theorem build_embed_url (v : Video) (k : PyStr) (e : Embed)
    (h : build_embed v k = Except.ok e) :
    e.url = v.link.getD [] ∧ e.fields = embedFields v k := by
  unfold build_embed at h
  cases hT : thumbnailUrl v with
  | error ex => rw [hT] at h; cases h
  | ok img =>
      rw [hT] at h
      dsimp only at h
      by_cases hc : preClampTotal v k > 6000
      · rw [if_pos hc] at h
        have he := (Except.ok.injEq _ _).mp h
        subst he
        exact ⟨rfl, rfl⟩
      · rw [if_neg hc] at h
        have he := (Except.ok.injEq _ _).mp h
        subst he
        exact ⟨rfl, rfl⟩

theorem buildEmbeds_mem (vids : List Video) (k : PyStr) :
    ∀ es, buildEmbeds vids k = Except.ok es →
      ∀ e ∈ es, ∃ v ∈ vids, build_embed v k = Except.ok e := by
  induction vids with
  | nil =>
      intro es h
      unfold buildEmbeds at h
      cases h
      intro e he
      cases he
  | cons v vs ih =>
      intro es h
      unfold buildEmbeds at h
      cases hb : build_embed v k with
      | error e2 => rw [hb] at h; cases h
      | ok emb =>
          rw [hb] at h
          cases hr : buildEmbeds vs k with
          | error e2 => rw [hr] at h; cases h
          | ok embs =>
              rw [hr] at h
              cases h
              intro e he
              rcases List.mem_cons.mp he with h1 | h1
              · subst h1
                exact ⟨v, List.mem_cons_self _ _, hb⟩
              · obtain ⟨w, hw, hwe⟩ := ih embs hr e h1
                exact ⟨w, List.mem_cons_of_mem _ hw, hwe⟩

theorem buildEmbeds_countP (k l : PyStr) (hl : l ≠ []) :
    ∀ (vids : List Video) (es : List Embed), buildEmbeds vids k = Except.ok es →
      es.countP (fun e => e.url = l) = vids.countP (fun v => v.link = some l) := by
  intro vids
  induction vids with
  | nil =>
      intro es h
      unfold buildEmbeds at h
      cases h
      rfl
  | cons v vs ih =>
      intro es h
      unfold buildEmbeds at h
      cases hb : build_embed v k with
      | error e2 => rw [hb] at h; cases h
      | ok emb =>
          rw [hb] at h
          cases hr : buildEmbeds vs k with
          | error e2 => rw [hr] at h; cases h
          | ok embs =>
              rw [hr] at h
              cases h
              rw [List.countP_cons, List.countP_cons, ih embs hr]
              congr 1
              rw [(build_embed_url v k emb hb).1]
              cases hv : v.link with
              | none =>
                  have : ([] : PyStr) ≠ l := fun he => hl he.symm
                  simp [this]
              | some t => simp

theorem send_ok_embeds (vids : List Video) (k : PyStr) (ps : List WebPayload)
    (h : send_detailed_to_discord vids k = Except.ok ps) :
    ∃ es, buildEmbeds vids k = Except.ok es ∧
      ps.map (fun p => p.embeds) = chunks10 es := by
  have hB : ∃ es, buildEmbeds vids k = Except.ok es := by
    unfold send_detailed_to_discord at h
    cases hb : buildEmbeds vids k with
    | error e => rw [hb] at h; cases h
    | ok es => exact ⟨es, rfl⟩
  obtain ⟨es, hB⟩ := hB
  exact ⟨es, hB, send_payload_embeds vids k ps es hB h⟩

theorem send_countP (vids : List Video) (k : PyStr) (ps : List WebPayload)
    (l : PyStr) (hl : l ≠ []) (h : send_detailed_to_discord vids k = Except.ok ps) :
    (ps.map (fun p => p.embeds.countP (fun e => e.url = l))).sum =
      vids.countP (fun v => v.link = some l) := by
  obtain ⟨es, hB, hmap⟩ := send_ok_embeds vids k ps h
  have hstep : ps.map (fun p => p.embeds.countP (fun e => e.url = l)) =
      (ps.map (fun p => p.embeds)).map (fun b => b.countP (fun e => e.url = l)) := by
    rw [List.map_map]
    rfl
  rw [hstep, hmap, ← List.countP_flatten, chunks10_flatten]
  exact buildEmbeds_countP k l hl vids es hB

theorem send_mem (vids : List Video) (k : PyStr) (ps : List WebPayload)
    (h : send_detailed_to_discord vids k = Except.ok ps) :
    ∀ p ∈ ps, ∀ e ∈ p.embeds, ∃ v ∈ vids, build_embed v k = Except.ok e := by
  obtain ⟨es, hB, hmap⟩ := send_ok_embeds vids k ps h
  intro p hp e he
  have hpe : p.embeds ∈ ps.map (fun p => p.embeds) := List.mem_map_of_mem _ hp
  rw [hmap] at hpe
  have hes : e ∈ es := by
    rw [← chunks10_flatten es]
    exact List.mem_flatten.mpr ⟨p.embeds, hpe, he⟩
  exact buildEmbeds_mem vids k es hB e hes

theorem deliverGroups_countP (l : PyStr) (hl : l ≠ []) :
    ∀ (gs : List (PyStr × List Video)) (ps : List WebPayload),
      deliverGroups gs = (ps, none) →
      (ps.map (fun p => p.embeds.countP (fun e => e.url = l))).sum =
        (gs.map (fun g => g.2.countP (fun v => v.link = some l))).sum := by
  intro gs
  induction gs with
  | nil =>
      intro ps h
      unfold deliverGroups at h
      cases h
      rfl
  | cons g rest ih =>
      obtain ⟨k, vids⟩ := g
      intro ps h
      unfold deliverGroups at h
      cases hs : send_detailed_to_discord vids k with
      | error e => rw [hs] at h; cases h
      | ok psg =>
          rw [hs] at h
          cases hr : deliverGroups rest with
          | mk more err =>
              rw [hr] at h
              have hps : psg ++ more = ps := congrArg Prod.fst h
              have herr : err = none := congrArg Prod.snd h
              subst herr
              subst hps
              rw [List.map_append, List.sum_append, List.map_cons, List.sum_cons]
              rw [send_countP vids k psg l hl hs, ih more hr]

theorem deliverGroups_mem :
    ∀ (gs : List (PyStr × List Video)) (ps : List WebPayload),
      deliverGroups gs = (ps, none) →
      ∀ p ∈ ps, ∀ e ∈ p.embeds, ∃ g ∈ gs, ∃ v ∈ g.2, build_embed v g.1 = Except.ok e := by
  intro gs
  induction gs with
  | nil =>
      intro ps h
      unfold deliverGroups at h
      cases h
      intro p hp
      cases hp
  | cons g rest ih =>
      obtain ⟨k, vids⟩ := g
      intro ps h
      unfold deliverGroups at h
      cases hs : send_detailed_to_discord vids k with
      | error e => rw [hs] at h; cases h
      | ok psg =>
          rw [hs] at h
          cases hr : deliverGroups rest with
          | mk more err =>
              rw [hr] at h
              have hps : psg ++ more = ps := congrArg Prod.fst h
              have herr : err = none := congrArg Prod.snd h
              subst herr
              subst hps
              intro p hp e he
              rcases List.mem_append.mp hp with h1 | h1
              · obtain ⟨v, hv, hve⟩ := send_mem vids k psg hs p h1 e he
                exact ⟨(k, vids), List.mem_cons_self _ _, v, hv, hve⟩
              · obtain ⟨g2, hg2, v, hv, hve⟩ := ih more hr p h1 e he
                exact ⟨g2, List.mem_cons_of_mem _ hg2, v, hv, hve⟩

theorem countP_eq_one_of_nodup_mem {α : Type} [DecidableEq α] (a : α) :
    ∀ xs : List α, xs.Nodup → a ∈ xs → xs.countP (fun x => x = a) = 1 := by
  intro xs
  induction xs with
  | nil => intro _ hmem; cases hmem
  | cons x rest ih =>
      intro hd hmem
      rw [List.countP_cons]
      rcases List.mem_cons.mp hmem with h1 | h1
      · subst h1
        have hnotin : a ∉ rest := (List.nodup_cons.mp hd).1
        have hz : rest.countP (fun x => x = a) = 0 := by
          rw [List.countP_eq_zero]
          intro b hb hba
          have hba2 : b = a := of_decide_eq_true hba
          subst hba2
          exact hnotin hb
        rw [hz]
        simp
      · have hxa : x ≠ a := by
          intro he
          subst he
          exact (List.nodup_cons.mp hd).1 h1
        rw [ih (List.nodup_cons.mp hd).2 h1]
        simp [hxa]

theorem mainRun_nvp (f : PyStr) (s u : PyStr → Option VResp) (qs us : List PyStr) :
    (mainRun f s u qs us).nvp = runNvp f s u qs us := by
  unfold mainRun
  dsimp only
  split
  · rfl
  · split <;> rfl

theorem mainRun_ok_parts (f : PyStr) (s u : PyStr → Option VResp) (qs us : List PyStr)
    (hc : (mainRun f s u qs us).caught = none) (hne : runNvp f s u qs us ≠ []) :
    deliverGroups (groupByKeyword (runNvp f s u qs us)) =
      ((mainRun f s u qs us).payloads, none) ∧
    (mainRun f s u qs us).committed = (runNvp f s u qs us).map (fun e => e.1) ∧
    (mainRun f s u qs us).file =
      write_known_links f ((runNvp f s u qs us).map (fun e => e.1)) := by
  revert hc
  unfold mainRun
  dsimp only
  split
  next hnil => exact absurd hnil hne
  next hnil =>
    split
    next ps heq =>
      intro _
      exact ⟨heq, rfl, rfl⟩
    next ps e heq =>
      intro hcon
      exact Option.noConfusion hcon

theorem sum_eq_one_countP (xs : List Nat) :
    xs.sum = 1 → xs.countP (fun n => n ≠ 0) = 1 := by
  induction xs with
  | nil => intro h; simp at h
  | cons x rest ih =>
      intro h
      rw [List.sum_cons] at h
      rw [List.countP_cons]
      by_cases hx : x = 0
      · subst hx
        rw [ih (by omega)]
        simp
      · have hrest : rest.sum = 0 := by omega
        have hcount : rest.countP (fun n => n ≠ 0) = 0 := by
          rw [List.countP_eq_zero]
          intro a ha
          have ha0 : a = 0 := by
            by_contra hne
            have : 0 < rest.sum := by
              calc 0 < a := by omega
                _ ≤ rest.sum := List.single_le_sum (by intro b _; omega) a ha
            omega
          simp [ha0]
        rw [hcount]
        simp [hx]

theorem countP_ne_zero_any {α : Type} (xs : List α) (p : α → Bool) :
    xs.any p = true ↔ xs.countP p ≠ 0 := by
  constructor
  · intro h hz
    obtain ⟨x, hx, hpx⟩ := List.any_eq_true.mp h
    rw [List.countP_eq_zero] at hz
    exact hz x hx hpx
  · intro h
    by_contra hna
    apply h
    rw [List.countP_eq_zero]
    intro a ha hpa
    exact hna (List.any_eq_true.mpr ⟨a, ha, hpa⟩)

theorem payloads_one_ref (ps : List WebPayload) (l : PyStr)
    (h : (ps.map (fun p => p.embeds.countP (fun e => e.url = l))).sum = 1) :
    ps.countP (fun p => p.embeds.any (fun e => e.url = l)) = 1 := by
  have h1 := sum_eq_one_countP _ h
  rw [List.countP_map] at h1
  rw [← h1]
  apply List.countP_congr
  intro p hp
  by_cases hany : p.embeds.any (fun e => e.url = l) = true
  · rw [hany]
    have := (countP_ne_zero_any _ _).mp hany
    simp only [Function.comp]
    simp [this]
  · have hf : p.embeds.any (fun e => e.url = l) = false := eq_false_of_ne_true hany
    rw [hf]
    have hz : p.embeds.countP (fun e => e.url = l) = 0 := by
      by_contra hc
      exact hany ((countP_ne_zero_any _ _).mpr hc)
    simp only [Function.comp]
    simp [hz]

/-- C2: if the same truthy link `l`, absent from the loaded ledger snapshot,
appears in the results of two different queries/users in one run (and the
run raises no unhandled exception), then: the links handed to the ledger
commit contain `l` exactly once; across all webhook calls exactly one embed
carries `l` as its URL; exactly one webhook call references it; and that
embed is the one built from the item `v0` of the first discovery in
configured processing order, under that discovery's keyword `k0` — the
attribution is to whichever query/user found it first. -/
theorem C2_single_claim_first_finder (f : PyStr) (s u : PyStr → Option VResp)
    (qs us : List PyStr) (l k0 : PyStr) (v0 : Video)
    (hl : l ≠ [])
    (hk : l ∉ read_known_links f)
    (hc : (mainRun f s u qs us).caught = none)
    (hfirst : (discoveries s u qs us).find? (fun p => p.2.link = some l) =
      some (k0, v0))
    (hmulti : ∃ p1 ∈ discoveries s u qs us, ∃ p2 ∈ discoveries s u qs us,
        p1.2.link = some l ∧ p2.2.link = some l ∧ p1.1 ≠ p2.1) :
    (mainRun f s u qs us).committed.countP (fun x => x = l) = 1 ∧
    ((mainRun f s u qs us).payloads.map
        (fun p => p.embeds.countP (fun e => e.url = l))).sum = 1 ∧
    (mainRun f s u qs us).payloads.countP
        (fun p => p.embeds.any (fun e => e.url = l)) = 1 ∧
    (∀ p ∈ (mainRun f s u qs us).payloads, ∀ e ∈ p.embeds, e.url = l →
        build_embed v0 k0 = Except.ok e) := by
  obtain ⟨hfind, hany⟩ := runNvp_find f s u qs us l hl hk
  rw [hfirst] at hfind
  have hfind : (runNvp f s u qs us).find? (fun e => e.1 = l) = some (l, v0, k0) := hfind
  have hmem : (l, v0, k0) ∈ runNvp f s u qs us := List.mem_of_find?_eq_some hfind
  have hne : runNvp f s u qs us ≠ [] := by
    intro he
    rw [he] at hmem
    cases hmem
  obtain ⟨hdel, hcommitted, _⟩ := mainRun_ok_parts f s u qs us hc hne
  obtain ⟨hinvAll, hnodup⟩ := runNvp_inv f s u qs us
  have hkeycount :
      ((runNvp f s u qs us).map (fun e => e.1)).countP (fun x => x = l) = 1 := by
    apply countP_eq_one_of_nodup_mem l _ hnodup
    exact List.mem_map.mpr ⟨(l, v0, k0), hmem, rfl⟩
  have hnvpcount : (runNvp f s u qs us).countP (fun e => e.1 = l) = 1 := by
    rw [← hkeycount, List.countP_map]
    rfl
  have hlinkcount :
      (runNvp f s u qs us).countP (fun e => e.2.1.link = some l) = 1 := by
    rw [← hnvpcount]
    apply List.countP_congr
    intro e he
    have hle := (hinvAll e he).1
    by_cases hel : e.1 = l
    · simp [hle, hel]
    · simp [hle, hel]
  have hsum : ((mainRun f s u qs us).payloads.map
      (fun p => p.embeds.countP (fun e => e.url = l))).sum = 1 := by
    rw [deliverGroups_countP l hl _ _ hdel, groupByKeyword_countP, hlinkcount]
  refine ⟨?_, hsum, payloads_one_ref _ l hsum, ?_⟩
  · rw [hcommitted]
    exact hkeycount
  · intro p hp e he hurl
    obtain ⟨g, hg, v, hv, hve⟩ := deliverGroups_mem _ _ hdel p hp e he
    have hu := (build_embed_url v g.1 e hve).1
    have hvl : v.link = some l := by
      rw [hu] at hurl
      cases hvv : v.link with
      | none =>
          rw [hvv] at hurl
          exact absurd (show l = [] from hurl.symm) hl
      | some t =>
          rw [hvv] at hurl
          exact congrArg some hurl
    have hprov := groupByKeyword_inv
      (fun kw w => ∃ lx, (lx, w, kw) ∈ runNvp f s u qs us) (runNvp f s u qs us)
      (fun e2 he2 => ⟨e2.1, he2⟩) g hg v hv
    obtain ⟨lx, hlx⟩ := hprov
    have hinv := hinvAll (lx, v, g.1) hlx
    have hlxl : lx = l := by
      have h1 : v.link = some lx := hinv.1
      rw [hvl] at h1
      exact ((Option.some.injEq _ _).mp h1).symm
    subst hlxl
    have huniq : ((lx, v, g.1) : NvpEntry) = (lx, v0, k0) :=
      List.inj_on_of_nodup_map hnodup hlx hmem rfl
    have hv0 : v = v0 := congrArg (fun e => e.2.1) huniq
    have hk0 : g.1 = k0 := congrArg (fun e => e.2.2) huniq
    rw [← hv0, ← hk0]
    exact hve

/-- Witness for C2: both queries `q1` and `q2` surface the same item; it is
claimed once, referenced by exactly one webhook call, committed once, and
attributed to `q1`, the first finder. -/
theorem C2_witness :
    (mainRun []
        (fun q => if q = pys "q1" ∨ q = pys "q2" then some ⟨[plainVideo]⟩ else none)
        (fun _ => none) [pys "q1", pys "q2"] []).committed.countP
      (fun x => x = pys "https://vimeo.com/1") = 1 ∧
    ((mainRun []
        (fun q => if q = pys "q1" ∨ q = pys "q2" then some ⟨[plainVideo]⟩ else none)
        (fun _ => none) [pys "q1", pys "q2"] []).payloads.map
      (fun p => p.embeds.countP (fun e => e.url = pys "https://vimeo.com/1"))).sum = 1 ∧
    (mainRun []
        (fun q => if q = pys "q1" ∨ q = pys "q2" then some ⟨[plainVideo]⟩ else none)
        (fun _ => none) [pys "q1", pys "q2"] []).payloads.countP
      (fun p => p.embeds.any (fun e => e.url = pys "https://vimeo.com/1")) = 1 ∧
    (∀ p ∈ (mainRun []
        (fun q => if q = pys "q1" ∨ q = pys "q2" then some ⟨[plainVideo]⟩ else none)
        (fun _ => none) [pys "q1", pys "q2"] []).payloads,
      ∀ e ∈ p.embeds, e.url = pys "https://vimeo.com/1" →
        build_embed plainVideo (pys "q1") = Except.ok e) :=
  C2_single_claim_first_finder []
    (fun q => if q = pys "q1" ∨ q = pys "q2" then some ⟨[plainVideo]⟩ else none)
    (fun _ => none) [pys "q1", pys "q2"] []
    (pys "https://vimeo.com/1") (pys "q1") plainVideo
    (by decide) (by decide) (by decide) (by decide)
    ⟨(pys "q1", plainVideo), by decide, (pys "q2", plainVideo), by decide,
      by decide, by decide, by decide⟩

/-! ## C3: idempotence of a second run over the committed ledger -/

theorem pyLinesAux_nil (acc : PyStr) :
    pyLinesAux acc [] = if acc = [] then [] else [acc.reverse] := rfl

theorem pyLinesAux_cons (acc : PyStr) (c : Char) (rest : PyStr) :
    pyLinesAux acc (c :: rest) =
      if c = '\n' then (acc.reverse ++ ['\n']) :: pyLinesAux [] rest
      else pyLinesAux (c :: acc) rest := rfl

theorem pyLinesAux_append (b : PyStr) :
    ∀ a : PyStr, a.getLast? = some '\n' →
      ∀ acc, pyLinesAux acc (a ++ b) = pyLinesAux acc a ++ pyLinesAux [] b := by
  intro a
  induction a with
  | nil => intro h; cases h
  | cons c rest ih =>
      intro h acc
      cases rest with
      | nil =>
          have hc : c = '\n' := by simpa using h
          subst hc
          simp only [List.cons_append, List.nil_append, pyLinesAux_cons,
            pyLinesAux_nil, if_pos rfl]
          rfl
      | cons r0 rrest =>
          have hlast : (r0 :: rrest).getLast? = some '\n' := by
            rw [List.getLast?_cons_cons] at h
            exact h
          by_cases hc : c = '\n'
          · rw [show ((c :: r0 :: rrest) ++ b) = c :: ((r0 :: rrest) ++ b) from rfl,
              pyLinesAux_cons, if_pos hc, pyLinesAux_cons, if_pos hc, ih hlast []]
            rfl
          · rw [show ((c :: r0 :: rrest) ++ b) = c :: ((r0 :: rrest) ++ b) from rfl,
              pyLinesAux_cons, if_neg hc, pyLinesAux_cons, if_neg hc]
            exact ih hlast (c :: acc)

theorem pyLinesAux_clean_line :
    ∀ (k : PyStr) (acc : PyStr), (∀ c ∈ k, c ≠ '\n') →
      pyLinesAux acc (k ++ ['\n']) = [acc.reverse ++ k ++ ['\n']] := by
  intro k
  induction k with
  | nil =>
      intro acc _
      rw [List.nil_append, pyLinesAux_cons, if_pos rfl, pyLinesAux_nil, if_pos rfl]
      simp
  | cons c rest ih =>
      intro acc hk
      rw [List.cons_append, pyLinesAux_cons, if_neg (hk c (List.mem_cons_self _ _))]
      rw [ih (c :: acc) (fun x hx => hk x (List.mem_cons_of_mem _ hx))]
      simp

theorem pyFileLines_blocks :
    ∀ ks : List PyStr, (∀ k ∈ ks, ∀ c ∈ k, c ≠ '\n') →
      pyFileLines ((ks.map (fun k => k ++ ['\n'])).flatten) =
        ks.map (fun k => k ++ ['\n']) := by
  intro ks
  induction ks with
  | nil => intro _; rfl
  | cons k rest ih =>
      intro h
      unfold pyFileLines
      simp only [List.map_cons, List.flatten_cons]
      rw [pyLinesAux_append _ (k ++ ['\n'])
        (by rw [List.getLast?_append_of_ne_nil _ (by simp)]; rfl) []]
      rw [pyLinesAux_clean_line k [] (h k (List.mem_cons_self _ _))]
      unfold pyFileLines at ih
      rw [ih (fun x hx => h x (List.mem_cons_of_mem _ hx))]
      simp

theorem dropWhile_eq_self_of_clean (l : PyStr)
    (h : ∀ c ∈ l, ¬ isPySpace c = true) : l.dropWhile isPySpace = l := by
  cases l with
  | nil => rfl
  | cons c rest =>
      rw [List.dropWhile_cons, if_neg (h c (List.mem_cons_self _ _))]

theorem pyStrip_clean (k : PyStr) (h : ∀ c ∈ k, ¬ isPySpace c = true) :
    pyStrip k = k := by
  unfold pyStrip
  rw [dropWhile_eq_self_of_clean k h]
  rw [dropWhile_eq_self_of_clean k.reverse (fun c hc => h c (List.mem_reverse.mp hc))]
  exact List.reverse_reverse k

theorem pyStrip_clean_line (k : PyStr) (h : ∀ c ∈ k, ¬ isPySpace c = true) :
    pyStrip (k ++ ['\n']) = k := by
  cases k with
  | nil => rfl
  | cons c rest =>
      unfold pyStrip
      have h1 : ((c :: rest) ++ ['\n']).dropWhile isPySpace = (c :: rest) ++ ['\n'] := by
        rw [List.cons_append, List.dropWhile_cons,
          if_neg (h c (List.mem_cons_self _ _))]
      rw [h1, List.reverse_append]
      have h2 : (['\n'].reverse ++ (c :: rest).reverse).dropWhile isPySpace =
          (c :: rest).reverse.dropWhile isPySpace := by
        simp only [List.reverse_cons, List.reverse_nil, List.nil_append,
          List.cons_append]
        rw [List.dropWhile_cons, if_pos (show isPySpace '\n' = true by decide)]
      rw [h2]
      rw [dropWhile_eq_self_of_clean (c :: rest).reverse
        (fun x hx => h x (List.mem_reverse.mp hx))]
      exact List.reverse_reverse _

/-- Reading the ledger after the run's append: the loaded set is the old
lines plus exactly the newly committed keys, provided the prior file is
empty or newline-terminated and the keys contain no whitespace. -/
theorem read_write_known_links (f0 : PyStr) (ks : List PyStr)
    (hf : f0 = [] ∨ f0.getLast? = some '\n')
    (hks : ∀ k ∈ ks, ∀ c ∈ k, ¬ isPySpace c = true) :
    read_known_links (write_known_links f0 ks) = read_known_links f0 ++ ks := by
  have hknl : ∀ k ∈ ks, ∀ c ∈ k, c ≠ '\n' := by
    intro k hk c hc he
    subst he
    exact hks k hk _ hc (by decide)
  have hid : ks.map (pyStrip ∘ fun k => k ++ ['\n']) = ks := by
    have h1 : ks.map (pyStrip ∘ fun k => k ++ ['\n']) = ks.map id :=
      List.map_congr_left (fun k hk => pyStrip_clean_line k (hks k hk))
    rw [h1, List.map_id]
  by_cases hempty : ks = []
  · subst hempty
    unfold write_known_links
    rw [if_pos rfl]
    simp
  · unfold write_known_links
    rw [if_neg hempty]
    have hblocks := pyFileLines_blocks ks hknl
    unfold read_known_links
    rcases hf with hf | hf
    · subst hf
      rw [List.nil_append, hblocks, List.map_map, hid]
      rfl
    · unfold pyFileLines
      unfold pyFileLines at hblocks
      rw [pyLinesAux_append _ f0 hf [], List.map_append]
      congr 1
      rw [hblocks, List.map_map, hid]

theorem mainRun_empty_parts (f : PyStr) (s u : PyStr → Option VResp)
    (qs us : List PyStr) (h : runNvp f s u qs us = []) :
    (mainRun f s u qs us).payloads = [] ∧ (mainRun f s u qs us).file = f ∧
    (mainRun f s u qs us).caught = none := by
  unfold mainRun
  dsimp only
  split
  next => exact ⟨rfl, rfl, rfl⟩
  next hne => exact absurd h hne

theorem collectStep_mem (known : List PyStr) (kw : PyStr) (nvp : List NvpEntry)
    (item : Video) :
    ∀ e ∈ collectStep known kw nvp item, e ∈ nvp ∨ (e.2.2 = kw ∧ e.2.1 = item) := by
  unfold collectStep
  cases item.link with
  | none => exact fun e he => Or.inl he
  | some l =>
      dsimp only
      split
      · intro e he
        rcases List.mem_append.mp he with h1 | h1
        · exact Or.inl h1
        · have : e = (l, item, kw) := by simpa using h1
          subst this
          exact Or.inr ⟨rfl, rfl⟩
      · exact fun e he => Or.inl he

theorem collectFromResponse_src (known : List PyStr) (kw : PyStr)
    (items : List Video) :
    ∀ nvp, ∀ e ∈ collectFromResponse known kw items nvp,
      e ∈ nvp ∨ (e.2.2 = kw ∧ e.2.1 ∈ items) := by
  induction items with
  | nil =>
      intro nvp e he
      unfold collectFromResponse at he
      rw [List.foldl_nil] at he
      exact Or.inl he
  | cons item rest ih =>
      intro nvp e he
      rw [collectFromResponse_cons] at he
      rcases ih (collectStep known kw nvp item) e he with h1 | h1
      · rcases collectStep_mem known kw nvp item e h1 with h2 | h2
        · exact Or.inl h2
        · exact Or.inr ⟨h2.1, h2.2 ▸ List.mem_cons_self _ _⟩
      · exact Or.inr ⟨h1.1, List.mem_cons_of_mem _ h1.2⟩

theorem phaseDiscoveries_cons (fetch : PyStr → Option VResp) (mk : PyStr → PyStr)
    (q : PyStr) (qs : List PyStr) :
    phaseDiscoveries fetch mk (q :: qs) =
      (if q = [] then [] else
        match fetch q with
        | none => []
        | some resp => resp.data.map (fun v => (mk q, v))) ++
        phaseDiscoveries fetch mk qs := by
  by_cases hq : q = []
  · rw [if_pos hq]
    unfold phaseDiscoveries
    rw [List.filter_cons]
    simp [hq]
  · rw [if_neg hq]
    unfold phaseDiscoveries
    rw [List.filter_cons]
    rw [if_pos (by simpa using hq)]
    rw [List.map_cons, List.flatten_cons]

theorem pollFold_src (known : List PyStr) (fetch : PyStr → Option VResp)
    (mk : PyStr → PyStr) :
    ∀ (entries : List PyStr) (acc : List NvpEntry × List PyStr),
      ∀ e ∈ (entries.foldl (pollStep known fetch mk) acc).1,
        e ∈ acc.1 ∨ (e.2.2, e.2.1) ∈ phaseDiscoveries fetch mk entries := by
  intro entries
  induction entries with
  | nil =>
      intro acc e he
      rw [List.foldl_nil] at he
      exact Or.inl he
  | cons q qs ih =>
      intro acc e he
      rw [List.foldl_cons] at he
      rw [phaseDiscoveries_cons]
      rcases ih (pollStep known fetch mk acc q) e he with h1 | h1
      · by_cases hq : q = []
        · have hstep : pollStep known fetch mk acc q = acc := by
            unfold pollStep
            rw [if_pos hq]
          rw [hstep] at h1
          exact Or.inl h1
        · cases hf : fetch q with
          | none =>
              have hstep : pollStep known fetch mk acc q = (acc.1, acc.2 ++ [q]) := by
                unfold pollStep
                rw [if_neg hq, hf]
              rw [hstep] at h1
              exact Or.inl h1
          | some resp =>
              have hstep : pollStep known fetch mk acc q =
                  (collectFromResponse known (mk q) resp.data acc.1, acc.2 ++ [q]) := by
                unfold pollStep
                rw [if_neg hq, hf]
              rw [hstep] at h1
              rcases collectFromResponse_src known (mk q) resp.data acc.1 e h1 with h2 | h2
              · exact Or.inl h2
              · refine Or.inr (List.mem_append_left _ ?_)
                rw [if_neg hq]
                dsimp only
                exact List.mem_map.mpr ⟨e.2.1, h2.2, by rw [h2.1]⟩
      · exact Or.inr (List.mem_append_right _ h1)

/-- Every claimed entry's (keyword, item) pair is one of the run's
discoveries. -/
theorem runNvp_src (f : PyStr) (s u : PyStr → Option VResp) (qs us : List PyStr) :
    ∀ e ∈ runNvp f s u qs us, (e.2.2, e.2.1) ∈ discoveries s u qs us := by
  intro e he
  rcases pollFold_src (read_known_links f) u (fun uid => pys "User: " ++ uid) us
      ((pollPhase (read_known_links f) s (fun q => q) qs []).1, []) e he with h1 | h1
  · rcases pollFold_src (read_known_links f) s (fun q => q) qs ([], []) e h1 with h2 | h2
    · cases h2
    · unfold discoveries
      exact List.mem_append_left _ h2
  · unfold discoveries
    exact List.mem_append_right _ h1

/-- C3 amended: with identical upstream responses, an initial ledger file
that is empty or newline-terminated, whitespace-free identifiers, and a
first run that raises no unhandled exception, the second run claims nothing
and performs zero delivery calls: every truthy link the run discovers is
already in the ledger loaded at the second run's start. -/
theorem C3_second_run_silent (f0 : PyStr) (s u : PyStr → Option VResp)
    (qs us : List PyStr)
    (hf : f0 = [] ∨ f0.getLast? = some '\n')
    (hgood : ∀ p ∈ discoveries s u qs us, ∀ l, p.2.link = some l →
        ∀ c ∈ l, ¬ isPySpace c = true)
    (hc1 : (mainRun f0 s u qs us).caught = none) :
    (∀ p ∈ discoveries s u qs us, ∀ l, p.2.link = some l → l ≠ [] →
        l ∈ read_known_links (mainRun f0 s u qs us).file) ∧
    runNvp (mainRun f0 s u qs us).file s u qs us = [] ∧
    (mainRun (mainRun f0 s u qs us).file s u qs us).payloads = [] ∧
    (mainRun (mainRun f0 s u qs us).file s u qs us).nvp = [] := by
  have hfile : read_known_links (mainRun f0 s u qs us).file =
      read_known_links f0 ++ ((runNvp f0 s u qs us).map (fun e => e.1)) ∨
      (runNvp f0 s u qs us = [] ∧ (mainRun f0 s u qs us).file = f0) := by
    by_cases hne : runNvp f0 s u qs us = []
    · exact Or.inr ⟨hne, (mainRun_empty_parts f0 s u qs us hne).2.1⟩
    · left
      obtain ⟨_, _, hfileq⟩ := mainRun_ok_parts f0 s u qs us hc1 hne
      rw [hfileq]
      apply read_write_known_links f0 _ hf
      intro k hk
      obtain ⟨e, he, hek⟩ := List.mem_map.mp hk
      have hsrc := runNvp_src f0 s u qs us e he
      have hinv := (runNvp_inv f0 s u qs us).1 e he
      subst hek
      exact hgood (e.2.2, e.2.1) hsrc e.1 hinv.1
  have hmemb : ∀ p ∈ discoveries s u qs us, ∀ l, p.2.link = some l → l ≠ [] →
      l ∈ read_known_links (mainRun f0 s u qs us).file := by
    intro p hp l hpl hl
    by_cases hk1 : l ∈ read_known_links f0
    · rcases hfile with hh | ⟨hnil, hfe⟩
      · rw [hh]
        exact List.mem_append_left _ hk1
      · rw [hfe]
        exact hk1
    · obtain ⟨hfind, hany⟩ := runNvp_find f0 s u qs us l hl hk1
      have hdisc : (discoveries s u qs us).any (fun p => p.2.link = some l) = true :=
        List.any_eq_true.mpr ⟨p, hp, by simp [hpl]⟩
      have hclaim : (runNvp f0 s u qs us).any (fun e => e.1 = l) = true := by
        rw [hany, hdisc]
      obtain ⟨e, he, hel⟩ := List.any_eq_true.mp hclaim
      have hkey : l ∈ (runNvp f0 s u qs us).map (fun e => e.1) :=
        List.mem_map.mpr ⟨e, he, of_decide_eq_true hel⟩
      rcases hfile with hh | ⟨hnil, hfe⟩
      · rw [hh]
        exact List.mem_append_right _ hkey
      · rw [hnil] at hkey
        cases hkey
  have hnvp2 : runNvp (mainRun f0 s u qs us).file s u qs us = [] := by
    by_contra hne2
    obtain ⟨e, he⟩ := List.exists_mem_of_ne_nil _ hne2
    have hinv2 := (runNvp_inv (mainRun f0 s u qs us).file s u qs us).1 e he
    have hsrc2 := runNvp_src (mainRun f0 s u qs us).file s u qs us e he
    exact hinv2.2.2 (hmemb (e.2.2, e.2.1) hsrc2 e.1 hinv2.1 hinv2.2.1)
  refine ⟨hmemb, hnvp2, ?_, ?_⟩
  · exact (mainRun_empty_parts _ s u qs us hnvp2).1
  · rw [mainRun_nvp]
    exact hnvp2

/-- An item whose link carries a trailing space: written raw, but stripped
when the ledger is read back, so the round trip never recognizes it. -/
def dirtyVideo : Video := { plainVideo with link := some (pys "x ") }

/-- A search backend that always returns the single whitespace-tainted item. -/
def c3DirtyFetch : PyStr → Option VResp := fun _ => some ⟨[dirtyVideo]⟩

/-- A search backend that always returns the single clean item. -/
def c3CleanFetch : PyStr → Option VResp := fun _ => some ⟨[plainVideo]⟩

/-- An uploads backend whose executor always fails. -/
def c3None : PyStr → Option VResp := fun _ => none

/-- C3 counterexample: with identical upstream responses across both runs,
a link carrying a trailing space ("x ") is re-claimed, re-delivered (one
embed referencing it is POSTed again) and re-appended by the second run —
the ledger stores the link raw but loads it stripped, so the second run
does not recognize it as known. -/
theorem C3_counterexample :
    (mainRun [] c3DirtyFetch c3None [pys "q"] []).file = pys "x \n" ∧
    (mainRun (pys "x \n") c3DirtyFetch c3None [pys "q"] []).nvp =
      [(pys "x ", dirtyVideo, pys "q")] ∧
    (mainRun (pys "x \n") c3DirtyFetch c3None [pys "q"] []).file =
      pys "x \nx \n" ∧
    ((mainRun (pys "x \n") c3DirtyFetch c3None [pys "q"] []).payloads.map
        (fun p => p.embeds.countP (fun e => e.url = pys "x "))).sum = 1 := by
  refine ⟨by decide, by decide, by decide, ?_⟩
  have hc : (mainRun (pys "x \n") c3DirtyFetch c3None [pys "q"] []).caught = none := by
    decide
  have hne : runNvp (pys "x \n") c3DirtyFetch c3None [pys "q"] [] ≠ [] := by decide
  obtain ⟨hdel, -, -⟩ :=
    mainRun_ok_parts (pys "x \n") c3DirtyFetch c3None [pys "q"] [] hc hne
  rw [deliverGroups_countP (pys "x ") (by decide) _ _ hdel]
  decide

/-- C3 witness: on a clean concrete input (empty initial ledger, one query,
one whitespace-free link) the second run claims nothing and posts
nothing. -/
theorem C3_witness :
    runNvp (mainRun [] c3CleanFetch c3None [pys "q"] []).file
      c3CleanFetch c3None [pys "q"] [] = [] ∧
    (mainRun (mainRun [] c3CleanFetch c3None [pys "q"] []).file
        c3CleanFetch c3None [pys "q"] []).payloads = [] := by
  have hg : ∀ p ∈ discoveries c3CleanFetch c3None [pys "q"] [], ∀ l,
      p.2.link = some l → ∀ c ∈ l, ¬ isPySpace c = true := by
    intro p hp l hpl
    rw [show discoveries c3CleanFetch c3None [pys "q"] [] = [(pys "q", plainVideo)]
      from rfl] at hp
    obtain rfl := List.mem_singleton.mp hp
    obtain rfl := Option.some.inj hpl
    decide
  obtain ⟨-, h2, h3, -⟩ := C3_second_run_silent [] c3CleanFetch c3None [pys "q"] []
    (Or.inl rfl) hg (by decide)
  exact ⟨h2, h3⟩

end Vimeo
